import Mathlib

/-!
Verification development for the tilt-ts repository.

The definitions below are a shallow embedding of the TypeScript sources:

* normalizeNamespace        — src/tiltState.ts / src/kubernetesManager.ts
* jdiffVal / analyzeChanges — src/stateAnalyzer.ts (getTiltState.ts) over the
                              deep-diff dependency
* getDockerBuildChanges / getK8sYamlChanges — src/stateAnalyzer.ts
* matchesPattern            — LiveUpdateManager.matchesPattern (index.ts)
* pushImageWithRetry / buildImage — src/dockerManager.ts
* TiltConfig model (getCachedConfig, initConfig, addDockerBuild) — src/tiltState.ts
* TiltEngine up / down      — src/tiltEngine.ts

Strings are modelled as Lean String / List Char; the sources only ever treat
them as flat sequences of characters (the inputs of interest are ASCII, where
the JavaScript string operations used agree with the Lean ones).
-/

/-! ## JSON-like values and the deep-diff model

The state document serialized by the program is plain JSON built from strings
and objects.  JVal models that fragment (the collections the diff claims are
about are string-keyed objects whose leaves are strings; arrays do not occur
in the values the claims quantify over, so the model omits them, and hence
never produces kind-A diff records). -/

inductive JVal where
  | str (s : String)
  | obj (fields : List (String × JVal))

mutual

/-- Boolean structural equality on JSON values (helper for decidable
equality of the nested inductive). -/
def JVal.beq : JVal → JVal → Bool
  | .str a, .str b => a == b
  | .obj a, .obj b => JVal.beqFields a b
  | _, _ => false
termination_by a _ => sizeOf a

/-- Boolean structural equality on field lists. -/
def JVal.beqFields : List (String × JVal) → List (String × JVal) → Bool
  | [], [] => true
  | (k, v) :: r, (k', v') :: r' => k == k' && JVal.beq v v' && JVal.beqFields r r'
  | _, _ => false
termination_by la _ => sizeOf la

end

def JVal.beq_iff_aux (n : Nat) :
    (∀ a b : JVal, sizeOf a ≤ n → (JVal.beq a b = true ↔ a = b)) ∧
    (∀ la lb : List (String × JVal), sizeOf la ≤ n →
      (JVal.beqFields la lb = true ↔ la = lb)) := by
  induction n with
  | zero =>
      constructor
      · intro a b h
        cases a <;> simp at h
      · intro la lb h
        cases la with
        | nil => cases lb <;> simp [JVal.beqFields]
        | cons p r => simp at h
  | succ n ih =>
      constructor
      · intro a b h
        cases a with
        | str s =>
            cases b <;> simp [JVal.beq]
        | obj fa =>
            cases b with
            | str t => simp [JVal.beq]
            | obj fb =>
                have hfa : sizeOf fa ≤ n := by simp at h; omega
                simp [JVal.beq, ih.2 fa fb hfa]
      · intro la lb h
        cases la with
        | nil => cases lb <;> simp [JVal.beqFields]
        | cons p r =>
            obtain ⟨k, v⟩ := p
            cases lb with
            | nil => simp [JVal.beqFields]
            | cons q r' =>
                obtain ⟨k', v'⟩ := q
                have hv : sizeOf v ≤ n := by simp at h; omega
                have hr : sizeOf r ≤ n := by simp at h; omega
                simp [JVal.beqFields, ih.1 v v' hv, ih.2 r r' hr, Bool.and_assoc,
                  and_assoc]

instance : DecidableEq JVal := fun a b =>
  decidable_of_iff _ ((JVal.beq_iff_aux (sizeOf a)).1 a b (Nat.le_refl _))

/-- Association lookup, first binding wins (JavaScript object access;
object keys are unique, which theorems assume via Nodup hypotheses). -/
def lookupF {α : Type} (k : String) : List (String × α) → Option α
  | [] => none
  | (k', v) :: rest => if k = k' then some v else lookupF k rest

/-- The keys of an association list. -/
def keysOf {α : Type} (l : List (String × α)) : List String :=
  l.map Prod.fst

/-- Does the association list bind the key? -/
def containsKey {α : Type} (k : String) (l : List (String × α)) : Bool :=
  l.any (fun p => p.1 = k)

/-- One record produced by the deep-diff dependency: kind N (new), D
(deleted) or E (edited), with the path of object keys leading to the
change.  Arrays are absent from the modelled fragment, so kind A does not
arise. -/
inductive DiffRec where
  | n (path : List String) (rhs : JVal)
  | d (path : List String) (lhs : JVal)
  | e (path : List String) (lhs rhs : JVal)
deriving DecidableEq

/-- The path of a diff record. -/
def DiffRec.path : DiffRec → List String
  | .n p _ => p
  | .d p _ => p
  | .e p _ _ => p

/-- Modelled from the deep-diff npm dependency (not part of the repository):
keys of the right object that the left object lacks yield one N record each,
at the key's path, carrying the whole right value. -/
def jdiffNew (path : List String) (lf rf : List (String × JVal)) : List DiffRec :=
  (rf.filter (fun p => !(containsKey p.1 lf))).map
    (fun p => DiffRec.n (path ++ [p.1]) p.2)

mutual

/-- Modelled from the deep-diff npm dependency (not part of the repository):
structural comparison of two values.  Two objects are compared key by key
(recursing into common keys, D for keys only on the left, N for keys only on
the right); any other combination yields a single E record at the current
path when the values differ and nothing when they are equal. -/
def jdiffVal (path : List String) : JVal → JVal → List DiffRec
  | .obj lf, .obj rf => jdiffFields path lf rf ++ jdiffNew path lf rf
  | l, r => if l = r then [] else [.e path l r]
termination_by l _ => sizeOf l

/-- Walk the left object's bindings: a key missing on the right is a D
record, a key present on both sides is compared recursively. -/
def jdiffFields (path : List String) : List (String × JVal) → List (String × JVal) → List DiffRec
  | [], _ => []
  | (k, v) :: rest, rf =>
      (match lookupF k rf with
       | none => [DiffRec.d (path ++ [k]) v]
       | some w => jdiffVal (path ++ [k]) v w) ++ jdiffFields path rest rf
termination_by lf _ => sizeOf lf

end

/-- Build-spec value as stored in the state document: the imageName field
followed by the remaining JSON fields (buildContext, hot) —
TiltConfig.addDockerBuild in src/tiltState.ts writes the object in exactly
this shape. -/
structure DockerBuildConfig where
  imageName : String
  rest : List (String × JVal)
deriving DecidableEq

/-- Manifest value as stored in the state document (src/tiltState.ts
addK8sYaml). -/
structure K8sYamlConfig where
  yamlPath : String
deriving DecidableEq

/-- The root state document (GlobalTiltState in src/types.ts): registry,
cluster context, namespace, and the two tracked collections keyed by image
name and manifest path. -/
structure GlobalTiltState where
  registry : String
  context : String
  k8sNamespace : String
  docker_build : List (String × DockerBuildConfig)
  k8s_yaml : List (String × K8sYamlConfig)
deriving DecidableEq

/-- JSON encoding of a build spec, as addDockerBuild lays it out. -/
def encodeBuild (c : DockerBuildConfig) : JVal :=
  .obj (("imageName", .str c.imageName) :: c.rest)

/-- JSON encoding of a manifest spec. -/
def encodeYaml (c : K8sYamlConfig) : JVal :=
  .obj [("yamlPath", .str c.yamlPath)]

/-- JSON encoding of the whole state document, field order as in the
TiltConfig constructor (docker, k8s, docker_build, k8s_yaml). -/
def encodeState (s : GlobalTiltState) : JVal :=
  .obj [("docker", .obj [("registry", .str s.registry)]),
        ("k8s", .obj [("context", .str s.context), ("namespace", .str s.k8sNamespace)]),
        ("docker_build", .obj (s.docker_build.map (fun p => (p.1, encodeBuild p.2)))),
        ("k8s_yaml", .obj (s.k8s_yaml.map (fun p => (p.1, encodeYaml p.2))))]

/-- Change classification used by StateAnalyzer. -/
inductive ChangeType where
  | added
  | removed
  | modified
deriving DecidableEq

/-- TiltStateChange (src/types.ts): classification, path of keys, new and
old value where applicable. -/
structure TiltStateChange where
  type : ChangeType
  path : List String
  value : Option JVal
  oldValue : Option JVal
deriving DecidableEq

/-- StateAnalyzer.convertDiffToChange (src/stateAnalyzer.ts): kind N becomes
added (value := rhs), D becomes removed (oldValue := lhs), E becomes
modified.  The source's A case converts array records, which the modelled
fragment never produces. -/
def convertDiffToChange : DiffRec → TiltStateChange
  | .n path rhs => ⟨.added, path, some rhs, none⟩
  | .d path lhs => ⟨.removed, path, none, some lhs⟩
  | .e path lhs rhs => ⟨.modified, path, some rhs, some lhs⟩

/-- StateAnalyzer.analyzeChanges: run deep-diff on the two state documents
and convert every record. -/
def analyzeChanges (oldState newState : GlobalTiltState) : List TiltStateChange :=
  (jdiffVal [] (encodeState oldState) (encodeState newState)).map convertDiffToChange

/-- Result shape of getDockerBuildChanges / getK8sYamlChanges: added and
modified carry the (new) values pushed by the source, removed carries the
keys. -/
structure ResourceChanges where
  added : List JVal
  removed : List String
  modified : List JVal
deriving DecidableEq

/-- Shared body of getDockerBuildChanges and getK8sYamlChanges: keep the
records whose path starts with the collection name, and among those only the
records whose path has exactly two components (collection, key); added and
modified push change.value, removed pushes the key (path component 1). -/
def collectChanges (collection : String) (changes : List TiltStateChange) : ResourceChanges :=
  let cs := changes.filter (fun c => c.path.head? = some collection)
  { added := cs.filterMap (fun c =>
      if c.path.length = 2 ∧ c.type = .added then c.value else none)
    removed := cs.filterMap (fun c =>
      if c.path.length = 2 ∧ c.type = .removed then c.path.get? 1 else none)
    modified := cs.filterMap (fun c =>
      if c.path.length = 2 ∧ c.type = .modified then c.value else none) }

/-- StateAnalyzer.getDockerBuildChanges. -/
def getDockerBuildChanges (changes : List TiltStateChange) : ResourceChanges :=
  collectChanges "docker_build" changes

/-- StateAnalyzer.getK8sYamlChanges. -/
def getK8sYamlChanges (changes : List TiltStateChange) : ResourceChanges :=
  collectChanges "k8s_yaml" changes

/-! ## Namespace normalization

normalizeNamespace as implemented identically in TiltConfig
(src/tiltState.ts lines 38-63) and KubernetesManager
(src/kubernetesManager.ts).  Each regex replace of the source is one list
transformation below, applied in source order. -/

/-- Is the character in the class a-z0-9 (lowercase alphanumeric)?  Stated
on character codes: 97-122 is a-z, 48-57 is 0-9. -/
def isLowerAlnum (c : Char) : Bool :=
  (97 ≤ c.toNat && c.toNat ≤ 122) || (48 ≤ c.toNat && c.toNat ≤ 57)

/-- Is the character in the class a-z0-9- (allowed namespace characters)? -/
def isNsValid (c : Char) : Bool :=
  isLowerAlnum c || c = '-'

/-- The replace of every character outside a-z0-9- with a hyphen. -/
def replaceInvalid (l : List Char) : List Char :=
  l.map (fun c => if isNsValid c then c else '-')

/-- Remove the trailing run of hyphens (the -+$ half of the strip regex). -/
def dropTrailHyphens : List Char → List Char
  | [] => []
  | c :: rest =>
      if (dropTrailHyphens rest).isEmpty && c = '-' then []
      else c :: dropTrailHyphens rest

/-- Remove leading and trailing hyphen runs (the replace of ^-+|-+$ with
the empty string). -/
def stripHyphens (l : List Char) : List Char :=
  dropTrailHyphens (l.dropWhile (fun c => c = '-'))

/-- Collapse every run of hyphens to a single hyphen (the replace of -+
with a single hyphen). -/
def collapseHyphens : List Char → List Char
  | [] => []
  | c :: rest =>
      if c = '-' && rest.head? = some '-' then collapseHyphens rest
      else c :: collapseHyphens rest

/-- Does the string start with a-z0-9 (the test of the anchored regex
against the head)? -/
def startsAlnum (l : List Char) : Bool :=
  match l.head? with
  | some c => isLowerAlnum c
  | none => false

/-- Does the string end with a-z0-9? -/
def endsAlnum (l : List Char) : Bool :=
  match l.getLast? with
  | some c => isLowerAlnum c
  | none => false

/-- The prefix step: when the string does not start with a-z0-9, prepend
ns- (the first if of the source). -/
def nsPre (l : List Char) : List Char :=
  if startsAlnum l then l else 'n' :: 's' :: '-' :: l

/-- The suffix step: when the string does not end with a-z0-9, append -ns
(the second if of the source). -/
def nsSuf (l : List Char) : List Char :=
  if endsAlnum l then l else l ++ ['-', 'n', 's']

/-- The empty-default step of the source (dead in practice, kept for
faithfulness: after the prefix and suffix steps the string is never
empty). -/
def nsDefault (l : List Char) : List Char :=
  if l.isEmpty then "default-ns".toList else l

/-- The truncation step: over 63 characters, keep 60 and append -ns. -/
def nsTruncate (l : List Char) : List Char :=
  if l.length > 63 then l.take 60 ++ ['-', 'n', 's'] else l

/-- The body of normalizeNamespace on character lists: lowercase, replace
invalid characters, strip leading/trailing hyphens, collapse hyphen runs,
then the prefix, suffix, empty-default and truncation steps, in source
order. -/
def nsCore (l : List Char) : List Char :=
  nsTruncate (nsDefault (nsSuf (nsPre
    (collapseHyphens (stripHyphens (replaceInvalid (l.map Char.toLower)))))))

/-- normalizeNamespace (src/tiltState.ts lines 38-63 and the identical
method of KubernetesManager). -/
def normalizeNamespace (s : String) : String :=
  String.mk (nsCore s.toList)

/-- Decidable rendering of the anchor regex of the claim,
a-z0-9 ( a-z0-9- {0,61} a-z0-9 )? anchored on both sides: nonempty, at
most 63 characters, every character in a-z0-9-, first and last character
in a-z0-9. -/
def matchesNamespaceRe (s : String) : Bool :=
  !s.toList.isEmpty && s.toList.length ≤ 63 && startsAlnum s.toList &&
    endsAlnum s.toList && s.toList.all isNsValid

/-! ## Live-update pattern matching

LiveUpdateManager.matchesPattern (index.ts lines 551-581).  When the
pattern contains an asterisk the source replaces backslashes by slashes in
pattern and path, builds a JavaScript regular expression from the pattern
by a chain of replaces — double asterisks (via an internal placeholder
written with underscores) become dot-star, single asterisks a bracket
class matching anything but a slash, question marks that class for one
character, every other character staying as written and unescaped —
anchors it on both sides and tests the normalized path with it.  The whole
method body runs inside a try whose catch returns false, so a pattern
whose translation is not a valid regular expression yields false.  The
regular-expression construction and test happen inside the JavaScript
engine; the embedding passes that engine in as the total function
jsRegexTest (the catch makes the call total).  Where the translation image
is plain — no unescaped regex metacharacter beyond the translated dot, no
interference with the internal placeholder, characters of the basic
multilingual plane so that engine code units and Lean characters
correspond — the generated regex is exactly the token list lexGlob of the
pattern, whose matcher is reMatch; globSafe and isBmp delimit that
fragment and the equivalence theorem assumes the engine agrees with
reMatch on it.  Patterns without an asterisk use exact equality or
directory-prefix comparison, which cannot throw. -/

inductive GTok where
  | lit (c : Char)
  | anyc
  | star
  | dstar
  | qmark
deriving DecidableEq

/-- Translation of a pattern to the generated regex alphabet, mirroring
the source's chain of replaces: double asterisk becomes dstar, single
asterisk star, question mark qmark, dot the unescaped any-char, everything
else a literal token.  The generated regex is rendered faithfully by this
token list only on patterns whose characters are globSafe: a character
class, group, quantifier, alternation or anchor metacharacter left
unescaped by the source keeps its regex meaning there, which no literal
token renders, so theorems that read reMatch of lexGlob as the generated
regex carry a globSafe hypothesis. -/
def lexGlob : List Char → List GTok
  | '*' :: '*' :: rest => .dstar :: lexGlob rest
  | '*' :: rest => .star :: lexGlob rest
  | '?' :: rest => .qmark :: lexGlob rest
  | '.' :: rest => .anyc :: lexGlob rest
  | c :: rest => .lit c :: lexGlob rest
  | [] => []

/-- The translation the specification describes: only the wildcard
characters are special (asterisk within a segment, double asterisk across
segments, question mark one in-segment character); every other character,
the dot included, is a literal. -/
def lexGlobSpec : List Char → List GTok
  | '*' :: '*' :: rest => .dstar :: lexGlobSpec rest
  | '*' :: rest => .star :: lexGlobSpec rest
  | '?' :: rest => .qmark :: lexGlobSpec rest
  | c :: rest => .lit c :: lexGlobSpec rest
  | [] => []

/-- A JavaScript line terminator: line feed, carriage return, line
separator U+2028 or paragraph separator U+2029.  The unescaped dot of the
generated regex, and hence also the dot-star produced from a double
asterisk, match any character except these; the negated bracket classes
produced from single asterisks and question marks do match them. -/
def isLineTerm (c : Char) : Bool :=
  c = Char.ofNat 10 || c = Char.ofNat 13 || c = Char.ofNat 8232 || c = Char.ofNat 8233

/-- A pattern character on which the source's unescaped translation is
rendered exactly by lexGlob.  Excluded are the bracket, parenthesis and
brace pairs, plus, pipe, caret and dollar — in the generated regex these
keep their class, group, quantifier, alternation and anchor meanings (or
make it invalid, in which case the source's catch returns false), none of
which a literal token renders — and the underscore, because the source's
intermediate placeholder for double asterisks is an underscore-delimited
word and underscores adjacent to a double asterisk can merge with it.  The
asterisk, question mark and dot are translated and the backslash is gone
after normSlash, so none of them needs excluding.  (The braces, code
points 123 and 125, are spelled numerically.) -/
def globSafe (c : Char) : Bool :=
  !(c = '[' || c = ']' || c = '(' || c = ')' ||
    c = Char.ofNat 123 || c = Char.ofNat 125 ||
    c = '+' || c = '|' || c = '^' || c = '$' || c = '_')

/-- A character of the basic multilingual plane.  The JavaScript engine
matches UTF-16 code units while the embedding matches characters; on BMP
characters the two agree one for one. -/
def isBmp (c : Char) : Bool :=
  decide (c.toNat < 65536)

/-- Anchored matcher for the generated regex over the rendered fragment:
a literal consumes itself, anyc (the unescaped dot) one character that is
not a line terminator, qmark one non-slash character, star any run of
non-slash characters, dstar (dot-star) any run free of line
terminators. -/
def reMatch : List GTok → List Char → Bool
  | [], ds => ds.isEmpty
  | .lit c :: ts, d :: ds => c = d && reMatch ts ds
  | .lit _ :: _, [] => false
  | .anyc :: ts, d :: ds => !isLineTerm d && reMatch ts ds
  | .anyc :: _, [] => false
  | .qmark :: ts, d :: ds => decide (d ≠ '/') && reMatch ts ds
  | .qmark :: _, [] => false
  | .star :: ts, [] => reMatch ts []
  | .star :: ts, d :: ds =>
      reMatch ts (d :: ds) || (decide (d ≠ '/') && reMatch (.star :: ts) ds)
  | .dstar :: ts, [] => reMatch ts []
  | .dstar :: ts, d :: ds =>
      reMatch ts (d :: ds) || (!isLineTerm d && reMatch (.dstar :: ts) ds)
termination_by ts ds => (ts.length, ds.length)

/-- The backslash-to-slash normalization the source applies to pattern and
path in the wildcard branch. -/
def normSlash (l : List Char) : List Char :=
  l.map (fun c => if c = '\\' then '/' else c)

/-- Is the second list a leading block of the first (the startsWith of the
exact branch)? -/
def startsWithL : List Char → List Char → Bool
  | _, [] => true
  | [], _ :: _ => false
  | c :: cs, d :: ds => c = d && startsWithL cs ds

/-- LiveUpdateManager.matchesPattern: the wildcard branch is taken exactly
when the pattern contains an asterisk, and hands the backslash-normalized
pattern and path to jsRegexTest, the JavaScript engine's construction and
anchored test of the generated regular expression, total because the
source's catch turns a construction error into false; otherwise the path
must equal the pattern or extend it by a path separator. -/
def matchesPattern (jsRegexTest : List Char → List Char → Bool)
    (filePath pattern : String) : Bool :=
  if pattern.toList.contains '*' then
    jsRegexTest (normSlash pattern.toList) (normSlash filePath.toList)
  else
    filePath == pattern || startsWithL filePath.toList (pattern.toList ++ ['/'])

/-- Declarative matching semantics for the generated regex over the
rendered fragment: star consumes a segment-local (slash-free) block, dstar
a block free of line terminators, anyc one non-line-terminator character,
following the JavaScript dot; dstar is the only token that matches across
path separators. -/
inductive GMatch : List GTok → List Char → Prop
  | nil : GMatch [] []
  | lit {c ts ds} : GMatch ts ds → GMatch (.lit c :: ts) (c :: ds)
  | anyc {d ts ds} : isLineTerm d = false → GMatch ts ds → GMatch (.anyc :: ts) (d :: ds)
  | qmark {d ts ds} : d ≠ '/' → GMatch ts ds → GMatch (.qmark :: ts) (d :: ds)
  | star {ts} (seg rest : List Char) : (∀ c ∈ seg, c ≠ '/') → GMatch ts rest →
      GMatch (.star :: ts) (seg ++ rest)
  | dstar {ts} (seg rest : List Char) : (∀ c ∈ seg, isLineTerm c = false) →
      GMatch ts rest → GMatch (.dstar :: ts) (seg ++ rest)

/-- Modelled from the spec: the matching semantics the claim describes for
its own translation lexGlobSpec — asterisk a slash-free block, double
asterisk an arbitrary block across path separators, question mark one
non-slash character, every other character (the dot included) itself.  The
specification speaks of glob wildcards, not of a regular-expression
engine, so no line-terminator or metacharacter subtlety enters here. -/
inductive SpecGlobMatch : List GTok → List Char → Prop
  | nil : SpecGlobMatch [] []
  | lit {c ts ds} : SpecGlobMatch ts ds → SpecGlobMatch (.lit c :: ts) (c :: ds)
  | qmark {d ts ds} : d ≠ '/' → SpecGlobMatch ts ds → SpecGlobMatch (.qmark :: ts) (d :: ds)
  | star {ts} (seg rest : List Char) : (∀ c ∈ seg, c ≠ '/') → SpecGlobMatch ts rest →
      SpecGlobMatch (.star :: ts) (seg ++ rest)
  | dstar {ts} (seg rest : List Char) : SpecGlobMatch ts rest →
      SpecGlobMatch (.dstar :: ts) (seg ++ rest)

/-! ## DockerManager: push retry and build

DockerManager.pushImageWithRetry and DockerManager.buildImage
(src/dockerManager.ts lines 53-176).  The external world (shell results) is
an oracle: pushOutcome k is none when push attempt k succeeds and some
message when it fails; the booleans of DockerBuildEnv are the results of
the validation and shell steps in source order. -/

/-- Trace of one pushImageWithRetry run: the attempt numbers issued, the
backoff delays slept in milliseconds, and the final result — ok, or the
error carrying the retry count and the last underlying error message. -/
structure PushTrace where
  attempts : List Nat
  delays : List Nat
  result : Except (Nat × Option String) Unit

/-- The retry loop of pushImageWithRetry: remaining counts the attempts
still allowed, attempt is the 1-based attempt number.  A successful
attempt returns immediately; a failed one records the error, sleeps
2 ^ attempt * 1000 milliseconds when attempts remain, and recurses.  When
remaining hits zero the loop has exhausted maxRetries attempts and the
final error carries the last underlying error. -/
def pushLoop (outcome : Nat → Option String) (maxRetries : Nat) :
    Nat → Nat → Option String → PushTrace
  | 0, _, lastError => ⟨[], [], .error (maxRetries, lastError)⟩
  | remaining + 1, attempt, _ =>
      match outcome attempt with
      | none => ⟨[attempt], [], .ok ()⟩
      | some e =>
          let rest := pushLoop outcome maxRetries remaining (attempt + 1) (some e)
          ⟨attempt :: rest.attempts,
           (if attempt < maxRetries then [2 ^ attempt * 1000] else []) ++ rest.delays,
           rest.result⟩

/-- DockerManager.pushImageWithRetry (src/dockerManager.ts lines 143-176):
attempts run from 1 to maxRetries. -/
def pushImageWithRetry (outcome : Nat → Option String) (maxRetries : Nat) : PushTrace :=
  pushLoop outcome maxRetries maxRetries 1 none

/-- The docker commands buildImage can issue that mutate the docker state:
the image build, the registry tag, one push per attempt, and the forced
image removals of the failure cleanup. -/
inductive DockerCmd where
  | buildCmd
  | tagCmd
  | pushCmd (attempt : Nat)
  | rmiCmd (ref : String)
deriving DecidableEq

/-- Environment of one buildImage call: results of the connection check,
the context/Dockerfile existence checks, the build, the image-exists
verification, the tag, the push attempts, and of the cleanup removals
(whose failures the source swallows). -/
structure DockerBuildEnv where
  connectionOk : Bool
  contextPath : String
  contextExists : Bool
  dockerfileExists : Bool
  buildOk : Bool
  verifyListsImage : Bool
  tagOk : Bool
  pushOutcome : Nat → Option String
  cleanupOk : Bool

/-- The errors buildImage can throw, one per throw site of the source. -/
inductive BuildErr where
  | cannotConnect
  | contextRequired
  | contextMissing
  | dockerfileMissing
  | buildFailed
  | imageNotCreated
  | tagFailed
  | pushFailedErr (n : Nat) (last : Option String)
deriving DecidableEq

/-- The try block of DockerManager.buildImage in source order: connection
check, context required / context exists / Dockerfile exists validations,
docker build, image verification, docker tag, push with three retries.
Returns the mutating commands issued and the outcome. -/
def buildImageCore (env : DockerBuildEnv) : List DockerCmd × Except BuildErr Unit :=
  if env.connectionOk = false then ([], .error .cannotConnect)
  else if env.contextPath = "" then ([], .error .contextRequired)
  else if env.contextExists = false then ([], .error .contextMissing)
  else if env.dockerfileExists = false then ([], .error .dockerfileMissing)
  else if env.buildOk = false then ([.buildCmd], .error .buildFailed)
  else if env.verifyListsImage = false then ([.buildCmd], .error .imageNotCreated)
  else if env.tagOk = false then ([.buildCmd, .tagCmd], .error .tagFailed)
  else
    let pt := pushImageWithRetry env.pushOutcome 3
    ([.buildCmd, .tagCmd] ++ pt.attempts.map .pushCmd,
     match pt.result with
     | .ok _ => .ok ()
     | .error (n, last) => .error (.pushFailedErr n last))

/-- DockerManager.buildImage (src/dockerManager.ts lines 53-141): the
catch block of the source appends the two forced removals (local tag and
registry tag) on any error and rethrows the original error; errors of the
removals themselves are swallowed (cleanupOk does not influence
anything). -/
def buildImage (env : DockerBuildEnv) (imageName registry : String) :
    List DockerCmd × Except BuildErr Unit :=
  let (t, r) := buildImageCore env
  match r with
  | .ok _ => (t, .ok ())
  | .error e =>
      (t ++ [.rmiCmd imageName, .rmiCmd (registry ++ "/" ++ imageName)], .error e)

/-! ## StateStore: TiltConfig model

TiltConfig (src/tiltState.ts) with getCachedConfig (the fs-based variant
cited by the claims): constructed defaults, synchronous registration into
the live state, and asynchronous init that replaces the state with the
loaded document and re-normalizes the namespace. -/

/-- The condition of the persisted state file when init runs. -/
inductive FileCond where
  | absent
  | unreadable
  | invalidJson
  | valid (doc : GlobalTiltState)

/-- The read-and-parse part of getCachedConfig before its catch: the
error string is the ENOENT code for a missing file, and the
SyntaxError/other markers for parse and read failures. -/
def readAndParse : FileCond → Except String GlobalTiltState
  | .absent => .error "ENOENT"
  | .unreadable => .error "EACCES"
  | .invalidJson => .error "SyntaxError"
  | .valid doc => .ok doc

/-- getCachedConfig (the fs variant): a successful read returns the parsed
document; any failure falls back to the passed initial state, warning on
parse and read errors but not on a merely absent file.  The catch swallows
every error, so the function is total. -/
def getCachedConfig (cond : FileCond) (initialTiltState : GlobalTiltState) :
    GlobalTiltState × List String :=
  match readAndParse cond with
  | .ok doc => (doc, [])
  | .error e => (initialTiltState, if e = "ENOENT" then [] else ["warn: " ++ e])

/-- The TiltConfig instance fields the claims are about: the live state,
the baseline snapshot, and the initialization flag. -/
structure TiltConfigModel where
  state : GlobalTiltState
  initialState : GlobalTiltState
  inited : Bool

/-- The state constructed by the TiltConfig constructor (defaults with the
default namespace already normalized). -/
def defaultTiltState : GlobalTiltState :=
  { registry := "localhost:36269"
    context := "k3d-ecosys-local-dev"
    k8sNamespace := normalizeNamespace "eco_test"
    docker_build := []
    k8s_yaml := [] }

/-- A freshly constructed TiltConfig. -/
def newTiltConfig : TiltConfigModel :=
  ⟨defaultTiltState, defaultTiltState, false⟩

/-- TiltConfig.init (src/tiltState.ts lines 84-97): when not yet
initialized, replace the whole state with the loaded document, re-normalize
its namespace, snapshot it as the baseline and set the flag.  Returns the
new instance and the warnings of the load. -/
def initConfig (cond : FileCond) (tc : TiltConfigModel) : TiltConfigModel × List String :=
  if tc.inited then (tc, [])
  else
    let loaded := getCachedConfig cond tc.state
    let st := { loaded.1 with k8sNamespace := normalizeNamespace loaded.1.k8sNamespace }
    (⟨st, st, true⟩, loaded.2)

/-- Upsert into an association list: assignment to a JavaScript object key
replaces an existing binding in place and appends a new one. -/
def upsert {α : Type} (k : String) (v : α) : List (String × α) → List (String × α)
  | [] => [(k, v)]
  | (k', v') :: rest =>
      if k = k' then (k, v) :: rest else (k', v') :: upsert k v rest

/-- TiltConfig.addDockerBuild (src/tiltState.ts lines 127-139): a
synchronous write into the live state document, no initialization
involved. -/
def addDockerBuild (imageName : String) (c : DockerBuildConfig) (tc : TiltConfigModel) :
    TiltConfigModel :=
  { tc with state := { tc.state with
      docker_build := upsert imageName c tc.state.docker_build } }

/-! ## TiltEngine: up and down

TiltEngine.up and TiltEngine.down (src/tiltEngine.ts; the claims cite the
draft with live-update support).  External calls are oracles; the trace
records every side-effecting call in order. -/

/-- The observable effects of one engine run. -/
inductive UpEffect where
  | warnAlreadyRunning
  | printChanges (changes : List TiltStateChange)
  | removeImage (name : String)
  | buildImageE (v : JVal)
  | deleteYaml (path : String)
  | applyYaml (v : JVal)
  | startLive (name : String)
  | writeDisk
  | rebase
deriving DecidableEq

/-- World oracles of one up run: preflight results and the outcomes of the
per-resource operations. -/
structure UpWorld where
  k8sReady : Bool
  dockerOk : Bool
  buildOutcome : JVal → Bool
  applyOutcome : JVal → Bool
  writeOk : Bool

/-- Does the build spec declare live-update steps (config.hot?.live_update
nonempty)?  The hot field is part of the spec's JSON payload. -/
def hasLiveUpdate (c : DockerBuildConfig) : Bool :=
  (lookupF "hot" c.rest).isSome

/-- Sequential apply loop of applyK8sChanges: each manifest is applied in
order and a failure rethrows, stopping the loop. -/
def applySeq (outcome : JVal → Bool) : List JVal → List UpEffect × Bool
  | [] => ([], true)
  | v :: rest =>
      if outcome v then
        let r := applySeq outcome rest
        (.applyYaml v :: r.1, r.2)
      else ([.applyYaml v], false)

/-- TiltEngine.up: the already-running guard, preflight checks (cluster,
docker, at least one registered resource), diff of baseline against live
state, the dry-run branch that only prints the change set, and the apply
branch (docker removals and builds, manifest deletions and applies, live
sessions in dev mode when both categories succeeded, then persist and
rebase when at least one succeeded). -/
def up (w : UpWorld) (dryRun devMode : Bool) (isRunning : Bool)
    (initialState st : GlobalTiltState) : List UpEffect × Except String Unit :=
  if isRunning then ([.warnAlreadyRunning], .ok ())
  else if w.k8sReady = false then ([], .error "preflight: cluster not accessible")
  else if w.dockerOk = false then ([], .error "preflight: docker not accessible")
  else if st.docker_build.isEmpty && st.k8s_yaml.isEmpty then
    ([], .error "preflight: no resources defined")
  else
    let changes := analyzeChanges initialState st
    if dryRun then ([.printChanges changes], .ok ())
    else
      let dockerChanges := getDockerBuildChanges changes
      let k8sChanges := getK8sYamlChanges changes
      let removeFx := dockerChanges.removed.map UpEffect.removeImage
      let buildList := dockerChanges.added ++ dockerChanges.modified
      let buildFx := buildList.map UpEffect.buildImageE
      let dockerSuccess := buildList.all w.buildOutcome
      let deleteFx := k8sChanges.removed.map UpEffect.deleteYaml
      let applyRes := applySeq w.applyOutcome (k8sChanges.added ++ k8sChanges.modified)
      let k8sSuccess := applyRes.2
      let liveFx :=
        if devMode && dockerSuccess && k8sSuccess then
          (st.docker_build.filter (fun p => hasLiveUpdate p.2)).map
            (fun p => UpEffect.startLive p.2.imageName)
        else []
      let persistFx := if dockerSuccess || k8sSuccess then [UpEffect.writeDisk, UpEffect.rebase] else []
      (removeFx ++ buildFx ++ deleteFx ++ applyRes.1 ++ liveFx ++ persistFx,
       if dockerSuccess || k8sSuccess then
         (if w.writeOk then .ok () else .error "write failed")
       else .ok ())

/-- Result of one down run: the per-resource calls attempted, the warnings
of the swallowed failures, and the engine flags afterwards. -/
structure DownResult where
  deleteAttempts : List String
  deleteWarnings : List String
  removeAttempts : List String
  removeWarnings : List String
  isRunning : Bool
  isDevMode : Bool
deriving DecidableEq

/-- TiltEngine.down: delete every registered manifest (each call in its
own try/catch whose catch only logs, under an allSettled that never
rejects), then remove every registered image the same way, then clear the
running flags.  Every failure is recorded as a warning; none escapes, so
the function returns ok unconditionally. -/
def down (st : GlobalTiltState)
    (delOutcome : String → Except String Unit)
    (rmOutcome : String → Except String Unit) : Except String DownResult :=
  .ok
    { deleteAttempts := st.k8s_yaml.map (fun p => p.2.yamlPath)
      deleteWarnings := st.k8s_yaml.filterMap (fun p =>
        match delOutcome p.2.yamlPath with
        | .ok _ => none
        | .error e => some e)
      removeAttempts := st.docker_build.map (fun p => p.2.imageName)
      removeWarnings := st.docker_build.filterMap (fun p =>
        match rmOutcome p.2.imageName with
        | .ok _ => none
        | .error e => some e)
      isRunning := false
      isDevMode := false }

/-- No two adjacent hyphens (the strings on which collapseHyphens is the
identity). -/
def noDouble : List Char → Bool
  | [] => true
  | c :: rest => !(c = '-' && rest.head? = some '-') && noDouble rest

/-- A namespace string already in normal shape: every character valid,
alphanumeric at both ends, no doubled hyphen, at most 63 characters. -/
def CleanNs (l : List Char) : Prop :=
  (∀ c ∈ l, isNsValid c = true) ∧ startsAlnum l = true ∧ endsAlnum l = true ∧
    noDouble l = true ∧ l.length ≤ 63

/-- The build spec registered by the dry-run scenario: image app with
build context ./app and no hot reload. -/
def appBuildConfig : DockerBuildConfig :=
  ⟨"app", [("buildContext", JVal.obj [("context", JVal.str "./app")])]⟩

/-- The state after registering only the app build on the defaults. -/
def appRegisteredState : GlobalTiltState :=
  { defaultTiltState with docker_build := [("app", appBuildConfig)] }

/-- Old state of the nested-modification scenario: app built from ./a. -/
def stCtxA : GlobalTiltState :=
  { defaultTiltState with docker_build :=
      [("app", ⟨"app", [("buildContext", JVal.obj [("context", JVal.str "./a")])]⟩)] }

/-- New state of the nested-modification scenario: app built from ./b. -/
def stCtxB : GlobalTiltState :=
  { defaultTiltState with docker_build :=
      [("app", ⟨"app", [("buildContext", JVal.obj [("context", JVal.str "./b")])]⟩)] }

/-- Is the record an N record? -/
def DiffRec.kindN : DiffRec → Bool
  | .n _ _ => true
  | _ => false

/-- Is the record a D record? -/
def DiffRec.kindD : DiffRec → Bool
  | .d _ _ => true
  | _ => false

/-- Are both values objects (the case in which deep-diff recurses instead
of emitting an E record at the current path)? -/
def JVal.bothObj : JVal → JVal → Bool
  | .obj _, .obj _ => true
  | _, _ => false

/-- Well-formed JSON value: every object in it has pairwise distinct keys
(JavaScript objects cannot hold duplicate keys, so every value deep-diff
ever sees satisfies this). -/
inductive WfKeys : JVal → Prop
  | str (s : String) : WfKeys (.str s)
  | obj (fields : List (String × JVal)) :
      (keysOf fields).Nodup →
      (∀ k v, (k, v) ∈ fields → WfKeys v) →
      WfKeys (.obj fields)

/-! ## Theorems -/

theorem toLower_of_isNsValid {c : Char} (h : isNsValid c = true) : Char.toLower c = c := by
  simp [isNsValid, isLowerAlnum] at h
  rcases h with h | h
  · unfold Char.toLower
    have hn : ¬(Char.toNat c ≥ 65 ∧ Char.toNat c ≤ 90) := by omega
    simp [hn]
  · subst h; decide

theorem isNsValid_hyphen : isNsValid '-' = true := by decide

theorem mem_replaceInvalid {l : List Char} {c : Char} (h : c ∈ replaceInvalid l) :
    isNsValid c = true := by
  simp [replaceInvalid] at h
  obtain ⟨d, _, hd⟩ := h
  by_cases hv : isNsValid d = true
  · simp [hv] at hd; subst hd; exact hv
  · simp [hv] at hd; subst hd; decide

theorem head_dropWhile_hyphen {l : List Char} {c : Char}
    (h : (l.dropWhile (fun c => c = '-')).head? = some c) : ¬(c = '-') := by
  induction l with
  | nil => simp at h
  | cons d rest ih =>
      by_cases hd : d = '-'
      · rw [List.dropWhile_cons_of_pos (by simp [hd])] at h
        exact ih h
      · rw [List.dropWhile_cons_of_neg (by simp [hd])] at h
        simp at h
        subst h
        exact hd

theorem mem_dropTrailHyphens {l : List Char} {c : Char}
    (h : c ∈ dropTrailHyphens l) : c ∈ l := by
  induction l with
  | nil => simp [dropTrailHyphens] at h
  | cons d rest ih =>
      simp only [dropTrailHyphens] at h
      by_cases hcond : (dropTrailHyphens rest).isEmpty && d = '-'
      · simp [hcond] at h
      · simp [hcond] at h
        rcases h with h | h
        · simp [h]
        · exact List.mem_cons_of_mem _ (ih h)

theorem getLast_dropTrailHyphens {l : List Char} {c : Char}
    (h : (dropTrailHyphens l).getLast? = some c) : ¬(c = '-') := by
  induction l with
  | nil => simp [dropTrailHyphens] at h
  | cons d rest ih =>
      cases hdt : dropTrailHyphens rest with
      | nil =>
          simp only [dropTrailHyphens, hdt] at h
          by_cases hd : d = '-'
          · simp [hd] at h
          · simp [hd] at h
            rw [← h]
            exact hd
      | cons x xs =>
          simp only [dropTrailHyphens, hdt] at h
          simp at h
          rw [← hdt] at h
          exact ih h

theorem head_dropTrailHyphens {l : List Char} (h : dropTrailHyphens l ≠ []) :
    (dropTrailHyphens l).head? = l.head? := by
  cases l with
  | nil => simp [dropTrailHyphens]
  | cons d rest =>
      simp only [dropTrailHyphens] at h ⊢
      by_cases hcond : (dropTrailHyphens rest).isEmpty && d = '-'
      · simp [hcond] at h
      · simp [hcond]

theorem mem_collapseHyphens {l : List Char} {c : Char} (h : c ∈ collapseHyphens l) :
    c ∈ l := by
  induction l with
  | nil => simp [collapseHyphens] at h
  | cons d rest ih =>
      simp only [collapseHyphens] at h
      by_cases hcond : d = '-' && rest.head? = some '-'
      · simp [hcond] at h
        exact List.mem_cons_of_mem _ (ih h)
      · simp [hcond] at h
        rcases h with h | h
        · simp [h]
        · exact List.mem_cons_of_mem _ (ih h)

theorem collapseHyphens_ne_nil {l : List Char} (h : l ≠ []) : collapseHyphens l ≠ [] := by
  induction l with
  | nil => exact absurd rfl h
  | cons d rest ih =>
      simp only [collapseHyphens]
      by_cases hcond : d = '-' && rest.head? = some '-'
      · have hrest : rest ≠ [] := by
          intro hr
          rw [hr] at hcond
          simp at hcond
        simp [hcond]
        exact ih hrest
      · simp [hcond]

theorem head_collapseHyphens (l : List Char) : (collapseHyphens l).head? = l.head? := by
  induction l with
  | nil => simp [collapseHyphens]
  | cons d rest ih =>
      simp only [collapseHyphens]
      by_cases hcond : d = '-' && rest.head? = some '-'
      · simp [hcond]
        rw [ih]
        simp at hcond
        rw [hcond.2, ← hcond.1]
      · simp [hcond]

theorem collapseHyphens_cons (d : Char) (rest : List Char) :
    collapseHyphens (d :: rest) =
      if d = '-' && rest.head? = some '-' then collapseHyphens rest
      else d :: collapseHyphens rest := rfl

theorem getLast_collapseHyphens (l : List Char) :
    (collapseHyphens l).getLast? = l.getLast? := by
  induction l with
  | nil => simp [collapseHyphens]
  | cons d rest ih =>
      cases hrest : rest with
      | nil => simp [collapseHyphens]
      | cons x xs =>
          subst hrest
          rw [collapseHyphens_cons]
          by_cases hcond : d = '-' && (x :: xs).head? = some '-'
          · simp only [hcond, if_true]
            rw [ih, List.getLast?_cons_cons]
          · simp only [hcond, if_false]
            have hne : collapseHyphens (x :: xs) ≠ [] := collapseHyphens_ne_nil (by simp)
            cases hc : collapseHyphens (x :: xs) with
            | nil => exact absurd hc hne
            | cons y ys =>
                have hif : (if false = true then y :: ys else d :: y :: ys) = d :: y :: ys := rfl
                rw [hif, List.getLast?_cons_cons, ← hc, ih, List.getLast?_cons_cons]

theorem length_collapseHyphens (l : List Char) :
    (collapseHyphens l).length ≤ l.length := by
  induction l with
  | nil => simp [collapseHyphens]
  | cons d rest ih =>
      simp only [collapseHyphens]
      by_cases hcond : d = '-' && rest.head? = some '-'
      · simp [hcond]; omega
      · simp [hcond]; omega


theorem noDouble_collapseHyphens (l : List Char) : noDouble (collapseHyphens l) = true := by
  induction l with
  | nil => simp [collapseHyphens, noDouble]
  | cons d rest ih =>
      rw [collapseHyphens_cons]
      by_cases hcond : d = '-' && rest.head? = some '-'
      · simp only [hcond, if_true]
        exact ih
      · simp only [hcond, if_false, noDouble]
        rw [head_collapseHyphens]
        simp at hcond ⊢
        refine ⟨?_, ih⟩
        tauto

theorem collapseHyphens_of_noDouble {l : List Char} (h : noDouble l = true) :
    collapseHyphens l = l := by
  induction l with
  | nil => simp [collapseHyphens]
  | cons d rest ih =>
      simp only [noDouble, Bool.and_eq_true, Bool.not_eq_true'] at h
      rw [collapseHyphens_cons, h.1]
      simp [ih h.2]

theorem isLowerAlnum_of_valid {c : Char} (hv : isNsValid c = true) (hne : ¬(c = '-')) :
    isLowerAlnum c = true := by
  simp [isNsValid] at hv
  rcases hv with hv | hv
  · exact hv
  · exact absurd hv hne

theorem ne_hyphen_of_isLowerAlnum {c : Char} (h : isLowerAlnum c = true) : ¬(c = '-') := by
  intro hc
  subst hc
  simp [isLowerAlnum] at h

theorem startsAlnum_ne_nil {l : List Char} (h : startsAlnum l = true) : l ≠ [] := by
  intro hl
  subst hl
  simp [startsAlnum] at h

theorem mem_stripHyphens {l : List Char} {c : Char} (h : c ∈ stripHyphens l) : c ∈ l := by
  have h1 := mem_dropTrailHyphens h
  exact (List.dropWhile_sublist _).subset h1

theorem map_toLower_of_valid {l : List Char} (h : ∀ c ∈ l, isNsValid c = true) :
    l.map Char.toLower = l := by
  have := List.map_congr_left (l := l) (f := Char.toLower) (g := id)
    (fun c hc => toLower_of_isNsValid (h c hc))
  rw [this, List.map_id]

theorem replaceInvalid_of_valid {l : List Char} (h : ∀ c ∈ l, isNsValid c = true) :
    replaceInvalid l = l := by
  unfold replaceInvalid
  have := List.map_congr_left (l := l) (f := fun c => if isNsValid c then c else '-') (g := id)
    (fun c hc => by simp [h c hc])
  rw [this, List.map_id]

theorem dropWhile_of_startsAlnum {l : List Char} (h : startsAlnum l = true) :
    l.dropWhile (fun c => c = '-') = l := by
  cases l with
  | nil => simp
  | cons c rest =>
      simp [startsAlnum] at h
      rw [List.dropWhile_cons_of_neg]
      simp
      exact ne_hyphen_of_isLowerAlnum h

theorem dropTrail_of_endsAlnum {l : List Char} (h : endsAlnum l = true) :
    dropTrailHyphens l = l := by
  induction l with
  | nil => rfl
  | cons d rest ih =>
      cases hrest : rest with
      | nil =>
          subst hrest
          simp [endsAlnum] at h
          have hd : ¬(d = '-') := ne_hyphen_of_isLowerAlnum h
          simp [dropTrailHyphens, hd]
      | cons x xs =>
          subst hrest
          have hre : endsAlnum (x :: xs) = true := by
            rw [endsAlnum] at h ⊢
            rw [List.getLast?_cons_cons] at h
            exact h
          have hih := ih hre
          rw [dropTrailHyphens, hih]
          simp

theorem stripHyphens_of_clean {l : List Char} (hs : startsAlnum l = true)
    (he : endsAlnum l = true) : stripHyphens l = l := by
  rw [stripHyphens, dropWhile_of_startsAlnum hs, dropTrail_of_endsAlnum he]

theorem startsAlnum_stage4 {l : List Char}
    (hnil : collapseHyphens (stripHyphens l) ≠ [])
    (hval : ∀ c ∈ l, isNsValid c = true) :
    startsAlnum (collapseHyphens (stripHyphens l)) = true := by
  set n3 := stripHyphens l with hn3
  have hn3ne : n3 ≠ [] := by
    intro h3
    rw [h3] at hnil
    exact hnil rfl
  cases hh : (collapseHyphens n3).head? with
  | none => exact absurd (List.head?_eq_none_iff.mp hh) hnil
  | some c =>
      have hh3 : n3.head? = some c := by rw [← head_collapseHyphens]; exact hh
      have hdw : n3.head? = (l.dropWhile (fun c => c = '-')).head? := by
        rw [hn3, stripHyphens]
        exact head_dropTrailHyphens (by rw [← stripHyphens, ← hn3]; exact hn3ne)
      have hcne : ¬(c = '-') := head_dropWhile_hyphen (by rw [← hdw]; exact hh3)
      have hcv : isNsValid c = true :=
        hval c (mem_stripHyphens (List.mem_of_mem_head? (hh3 ▸ rfl)))
      simp [startsAlnum, hh]
      exact isLowerAlnum_of_valid hcv hcne

theorem endsAlnum_stage4 {l : List Char}
    (hnil : collapseHyphens (stripHyphens l) ≠ [])
    (hval : ∀ c ∈ l, isNsValid c = true) :
    endsAlnum (collapseHyphens (stripHyphens l)) = true := by
  set n3 := stripHyphens l with hn3
  cases hh : (collapseHyphens n3).getLast? with
  | none => exact absurd (List.getLast?_eq_none_iff.mp hh) hnil
  | some c =>
      have hh3 : n3.getLast? = some c := by rw [← getLast_collapseHyphens]; exact hh
      have hcne : ¬(c = '-') := by
        rw [hn3, stripHyphens] at hh3
        exact getLast_dropTrailHyphens hh3
      have hcv : isNsValid c = true :=
        hval c (mem_stripHyphens (List.mem_of_getLast?_eq_some hh3))
      simp [endsAlnum, hh]
      exact isLowerAlnum_of_valid hcv hcne

theorem mem_nsTail {c : Char} (h : c ∈ ['-', 'n', 's']) : isNsValid c = true := by
  fin_cases h <;> decide

theorem endsAlnum_append_ns (l : List Char) : endsAlnum (l ++ ['-', 'n', 's']) = true := by
  unfold endsAlnum
  rw [List.getLast?_append]
  rfl

theorem nsCore_shape (l : List Char) :
    nsCore l ≠ [] ∧ (nsCore l).length ≤ 63 ∧ startsAlnum (nsCore l) = true ∧
      endsAlnum (nsCore l) = true ∧ ∀ c ∈ nsCore l, isNsValid c = true := by
  unfold nsCore
  set n2 := replaceInvalid (l.map Char.toLower) with hn2
  have hval2 : ∀ c ∈ n2, isNsValid c = true := fun c hc => mem_replaceInvalid hc
  set n4 := collapseHyphens (stripHyphens n2) with hn4
  have f1 : ∀ c ∈ n4, isNsValid c = true := fun c hc =>
    hval2 c (mem_stripHyphens (mem_collapseHyphens hc))
  by_cases hnil : n4 = []
  · rw [hnil]
    refine ⟨by decide, by decide, by decide, by decide, by decide⟩
  · have hstart : startsAlnum n4 = true := startsAlnum_stage4 hnil hval2
    have hend : endsAlnum n4 = true := endsAlnum_stage4 hnil hval2
    rw [nsPre, if_pos hstart, nsSuf, if_pos hend, nsDefault,
      if_neg (by simpa using hnil)]
    by_cases hlen : n4.length > 63
    · rw [nsTruncate, if_pos hlen]
      obtain ⟨c, t, hct⟩ : ∃ c t, n4 = c :: t := by
        cases hx : n4 with
        | nil => exact absurd hx hnil
        | cons c t => exact ⟨c, t, rfl⟩
      have htl : (n4.take 60).length = 60 := by
        rw [List.length_take]
        omega
      have hlen63 : (n4.take 60 ++ ['-', 'n', 's']).length = 63 := by
        rw [List.length_append, htl]
        rfl
      refine ⟨?_, by omega, ?_, endsAlnum_append_ns _, ?_⟩
      · intro h0
        rw [h0] at hlen63
        simp at hlen63
      · have h60 : List.take 60 (c :: t) = c :: List.take 59 t := rfl
        rw [hct, h60]
        have hsa : startsAlnum (c :: (t.take 59 ++ ['-', 'n', 's'])) = startsAlnum (c :: t) := by
          simp [startsAlnum]
        rw [List.cons_append, hsa, ← hct]
        exact hstart
      · intro c hc
        rcases List.mem_append.mp hc with hc | hc
        · exact f1 c (List.take_subset _ _ hc)
        · exact mem_nsTail hc
    · rw [nsTruncate, if_neg hlen]
      exact ⟨hnil, by omega, hstart, hend, f1⟩

theorem nsCore_of_clean {l : List Char} (h : CleanNs l) : nsCore l = l := by
  obtain ⟨hval, hs, he, hnd, hlen⟩ := h
  unfold nsCore
  rw [map_toLower_of_valid hval, replaceInvalid_of_valid hval,
    stripHyphens_of_clean hs he, collapseHyphens_of_noDouble hnd,
    nsPre, if_pos hs, nsSuf, if_pos he, nsDefault,
    if_neg (by simpa using startsAlnum_ne_nil hs), nsTruncate, if_neg (by omega)]

theorem nsCore_nsCore (l : List Char) :
    nsCore (nsCore l) = collapseHyphens (nsCore l) := by
  obtain ⟨hne, hlen, hs, he, hval⟩ := nsCore_shape l
  set y := nsCore l with hy
  have hz : collapseHyphens (stripHyphens (replaceInvalid (y.map Char.toLower))) =
      collapseHyphens y := by
    rw [map_toLower_of_valid hval, replaceInvalid_of_valid hval,
      stripHyphens_of_clean hs he]
  have hzne : collapseHyphens y ≠ [] := collapseHyphens_ne_nil hne
  have hzs : startsAlnum (collapseHyphens y) = true := by
    rw [startsAlnum, head_collapseHyphens]
    rw [startsAlnum] at hs
    exact hs
  have hze : endsAlnum (collapseHyphens y) = true := by
    rw [endsAlnum, getLast_collapseHyphens]
    rw [endsAlnum] at he
    exact he
  have hzlen : (collapseHyphens y).length ≤ 63 :=
    le_trans (length_collapseHyphens y) hlen
  conv_lhs => rw [nsCore]
  rw [hz, nsPre, if_pos hzs, nsSuf, if_pos hze, nsDefault,
    if_neg (by simpa using hzne), nsTruncate, if_neg (by omega)]

theorem cleanNs_nsCore_nsCore (l : List Char) : CleanNs (nsCore (nsCore l)) := by
  obtain ⟨hne, hlen, hs, he, hval⟩ := nsCore_shape l
  rw [nsCore_nsCore]
  refine ⟨?_, ?_, ?_, noDouble_collapseHyphens _, le_trans (length_collapseHyphens _) hlen⟩
  · intro c hc
    exact hval c (mem_collapseHyphens hc)
  · rw [startsAlnum, head_collapseHyphens]
    rw [startsAlnum] at hs
    exact hs
  · rw [endsAlnum, getLast_collapseHyphens]
    rw [endsAlnum] at he
    exact he

/-- C1 amended, list level: the third application changes nothing past the
second. -/
theorem nsCore_three (l : List Char) : nsCore (nsCore (nsCore l)) = nsCore (nsCore l) :=
  nsCore_of_clean (cleanNs_nsCore_nsCore l)

/-- C1 counterexample: normalizing the empty string yields ns--ns, whose
own normalization collapses the doubled hyphen, so one application is not
idempotent. -/
theorem claim_C1_counterexample :
    normalizeNamespace "" = "ns--ns" ∧
    normalizeNamespace (normalizeNamespace "") = "ns-ns" ∧
    ¬(normalizeNamespace (normalizeNamespace "") = normalizeNamespace "") := by
  refine ⟨by decide, by decide, by decide⟩

/-- C1 amended: every output of normalizeNamespace matches the anchored
regular expression a-z0-9 ( a-z0-9- {0,61} a-z0-9 )? — nonempty, at most 63
characters, alphanumeric at both ends, only a-z0-9- inside — and
normalization is idempotent from the second application on
(normalize of normalize of normalize x equals normalize of normalize x for
every x), though a single application need not be a fixpoint. -/
theorem claim_C1_amended (s : String) :
    matchesNamespaceRe (normalizeNamespace s) = true ∧
    normalizeNamespace (normalizeNamespace (normalizeNamespace s)) =
      normalizeNamespace (normalizeNamespace s) := by
  constructor
  · obtain ⟨hne, hlen, hs, he, hval⟩ := nsCore_shape s.toList
    have hdata : (normalizeNamespace s).toList = nsCore s.toList := rfl
    rw [matchesNamespaceRe, hdata]
    simp only [String.toList] at hne hlen hs he hval
    rw [Bool.and_eq_true, Bool.and_eq_true, Bool.and_eq_true, Bool.and_eq_true]
    refine ⟨⟨⟨⟨?_, ?_⟩, hs⟩, he⟩, ?_⟩
    · simpa using hne
    · simpa using hlen
    · rw [List.all_eq_true]
      intro c hc
      simpa using hval c hc
  · show String.mk (nsCore (String.mk (nsCore (String.mk (nsCore s.toList)).toList)).toList) =
      String.mk (nsCore (String.mk (nsCore s.toList)).toList)
    have htl : ∀ l : List Char, (String.mk l).toList = l := fun l => rfl
    rw [htl, htl, nsCore_three]

/-- C4: a push failing on every attempt makes exactly the configured three
attempts (never two or four), sleeps the doubling backoff delays 2000 then
4000 milliseconds between them, and ends in the push-failure error carrying
the last underlying error; a first success at attempt k short-circuits,
leaving exactly the attempts 1..k and an ok result. -/
theorem claim_C4 (outcome : Nat → Option String) :
    ((∀ k, 1 ≤ k → k ≤ 3 → (outcome k).isSome = true) →
      (pushImageWithRetry outcome 3).attempts = [1, 2, 3] ∧
      (pushImageWithRetry outcome 3).delays = [2000, 4000] ∧
      (pushImageWithRetry outcome 3).result = .error (3, outcome 3)) ∧
    (∀ k, 1 ≤ k → k ≤ 3 → outcome k = none →
      (∀ j, 1 ≤ j → j < k → (outcome j).isSome = true) →
      (pushImageWithRetry outcome 3).attempts = List.range' 1 k ∧
      (pushImageWithRetry outcome 3).result = .ok ()) := by
  constructor
  · intro hall
    have h1 := hall 1 (by omega) (by omega)
    have h2 := hall 2 (by omega) (by omega)
    have h3 := hall 3 (by omega) (by omega)
    obtain ⟨e1, he1⟩ := Option.isSome_iff_exists.mp h1
    obtain ⟨e2, he2⟩ := Option.isSome_iff_exists.mp h2
    obtain ⟨e3, he3⟩ := Option.isSome_iff_exists.mp h3
    simp [pushImageWithRetry, pushLoop, he1, he2, he3]
  · intro k hk1 hk3 hk hprev
    interval_cases k
    · simp [pushImageWithRetry, pushLoop, hk, List.range']
    · have h1 := hprev 1 (by omega) (by omega)
      obtain ⟨e1, he1⟩ := Option.isSome_iff_exists.mp h1
      simp [pushImageWithRetry, pushLoop, he1, hk, List.range']
    · have h1 := hprev 1 (by omega) (by omega)
      have h2 := hprev 2 (by omega) (by omega)
      obtain ⟨e1, he1⟩ := Option.isSome_iff_exists.mp h1
      obtain ⟨e2, he2⟩ := Option.isSome_iff_exists.mp h2
      simp [pushImageWithRetry, pushLoop, he1, he2, hk, List.range']

/-- C4 witness: with an oracle failing every attempt, the theorem applies
and, separately instantiated with an oracle succeeding at attempt 2, it
shows the short-circuit. -/
theorem claim_C4_witness :
    ((pushImageWithRetry (fun _ => some "boom") 3).attempts = [1, 2, 3] ∧
      (pushImageWithRetry (fun _ => some "boom") 3).delays = [2000, 4000] ∧
      (pushImageWithRetry (fun _ => some "boom") 3).result = .error (3, some "boom")) ∧
    ((pushImageWithRetry (fun k => if k = 2 then none else some "e") 3).attempts =
        List.range' 1 2 ∧
      (pushImageWithRetry (fun k => if k = 2 then none else some "e") 3).result = .ok ()) :=
  ⟨(claim_C4 (fun _ => some "boom")).1 (fun k _ _ => rfl),
   (claim_C4 (fun k => if k = 2 then none else some "e")).2 2 (by decide) (by decide)
     (by decide) (fun j h1 h2 => by interval_cases j; rfl)⟩

theorem buildImage_ok_shape (env : DockerBuildEnv) (n r : String)
    (h1 : env.connectionOk = true) (h2 : ¬(env.contextPath = ""))
    (h3 : env.contextExists = true) (h4 : env.dockerfileExists = true)
    (h5 : env.buildOk = true) (h6 : env.verifyListsImage = true)
    (h7 : env.tagOk = true) :
    (buildImage env n r).1 =
      [.buildCmd, .tagCmd] ++ (pushImageWithRetry env.pushOutcome 3).attempts.map .pushCmd ++
        (match (pushImageWithRetry env.pushOutcome 3).result with
         | .ok _ => []
         | .error _ => [.rmiCmd n, .rmiCmd (r ++ "/" ++ n)]) := by
  cases hpt : (pushImageWithRetry env.pushOutcome 3).result with
  | ok u => simp [buildImage, buildImageCore, h1, h2, h3, h4, h5, h6, h7, hpt]
  | error pr =>
      obtain ⟨pn, pe⟩ := pr
      simp [buildImage, buildImageCore, h1, h2, h3, h4, h5, h6, h7, hpt]

/-- C5: within one buildImage call the side effects are strictly ordered
build, then tag, then push — the tag command needs a successful build and a
verified image, every push needs a successful tag (and follows build and
tag in the trace), a missing context directory or Dockerfile fails before
any build command with the corresponding validation error, every failure
appends the two best-effort cleanup removals, and the cleanup's own outcome
influences neither trace nor result. -/
theorem claim_C5 (env : DockerBuildEnv) (n r : String) :
    (DockerCmd.tagCmd ∈ (buildImage env n r).1 →
      env.buildOk = true ∧ env.verifyListsImage = true ∧
        (buildImage env n r).1.take 2 = [.buildCmd, .tagCmd]) ∧
    (∀ a, DockerCmd.pushCmd a ∈ (buildImage env n r).1 →
      env.tagOk = true ∧ (buildImage env n r).1.take 2 = [.buildCmd, .tagCmd]) ∧
    (env.connectionOk = true → ¬(env.contextPath = "") →
      (env.contextExists = false ∨ env.dockerfileExists = false) →
      DockerCmd.buildCmd ∉ (buildImage env n r).1 ∧
        ((buildImage env n r).2 = .error .contextMissing ∨
         (buildImage env n r).2 = .error .dockerfileMissing)) ∧
    (∀ e, (buildImage env n r).2 = .error e →
      DockerCmd.rmiCmd n ∈ (buildImage env n r).1 ∧
        DockerCmd.rmiCmd (r ++ "/" ++ n) ∈ (buildImage env n r).1) ∧
    (∀ b, buildImage { env with cleanupOk := b } n r = buildImage env n r) := by
  obtain ⟨co, cp, ce, df, bo, vi, tg, po, cl⟩ := env
  by_cases hco : co = false
  · subst hco
    simp [buildImage, buildImageCore]
  · rw [Bool.not_eq_false] at hco
    subst hco
    by_cases hcp : cp = ""
    · subst hcp
      simp [buildImage, buildImageCore]
    · by_cases hce : ce = false
      · subst hce
        simp [buildImage, buildImageCore, hcp]
      · rw [Bool.not_eq_false] at hce
        subst hce
        by_cases hdf : df = false
        · subst hdf
          simp [buildImage, buildImageCore, hcp]
        · rw [Bool.not_eq_false] at hdf
          subst hdf
          by_cases hbo : bo = false
          · subst hbo
            simp [buildImage, buildImageCore, hcp]
          · rw [Bool.not_eq_false] at hbo
            subst hbo
            by_cases hvi : vi = false
            · subst hvi
              simp [buildImage, buildImageCore, hcp]
            · rw [Bool.not_eq_false] at hvi
              subst hvi
              by_cases htg : tg = false
              · subst htg
                simp [buildImage, buildImageCore, hcp]
              · rw [Bool.not_eq_false] at htg
                subst htg
                cases hpt : (pushImageWithRetry po 3).result with
                | ok u => simp [buildImage, buildImageCore, hcp, hpt]
                | error pr =>
                    obtain ⟨pn, pe⟩ := pr
                    simp [buildImage, buildImageCore, hcp, hpt]

/-- C5 witness: the theorem applied to an all-success environment (the tag
command is present, so the ordering conjunct fires) and to an environment
with a missing build context (the validation conjunct fires). -/
theorem claim_C5_witness :
    ((⟨true, "./app", true, true, true, true, true, fun _ => none, true⟩ :
        DockerBuildEnv).buildOk = true ∧
      (⟨true, "./app", true, true, true, true, true, fun _ => none, true⟩ :
        DockerBuildEnv).verifyListsImage = true ∧
      (buildImage ⟨true, "./app", true, true, true, true, true, fun _ => none, true⟩
          "app" "reg").1.take 2 = [.buildCmd, .tagCmd]) ∧
    (DockerCmd.buildCmd ∉
        (buildImage ⟨true, "./app", false, true, true, true, true, fun _ => none, true⟩
          "app" "reg").1 ∧
      ((buildImage ⟨true, "./app", false, true, true, true, true, fun _ => none, true⟩
          "app" "reg").2 = .error .contextMissing ∨
       (buildImage ⟨true, "./app", false, true, true, true, true, fun _ => none, true⟩
          "app" "reg").2 = .error .dockerfileMissing)) :=
  ⟨(claim_C5 ⟨true, "./app", true, true, true, true, true, fun _ => none, true⟩
      "app" "reg").1 (by decide),
   (claim_C5 ⟨true, "./app", false, true, true, true, true, fun _ => none, true⟩
      "app" "reg").2.2.1 rfl (by decide) (Or.inl rfl)⟩

/-- C6: down never propagates an error (its result is ok for every state
and every oracle behavior), unconditionally clears the running flag, and
attempts the removal of every registered image and the deletion of every
registered manifest no matter which cluster delete calls throw — the
attempt lists do not depend on the delete or removal oracles at all. -/
theorem claim_C6 (st : GlobalTiltState)
    (delOutcome rmOutcome : String → Except String Unit) :
    ∃ res : DownResult, down st delOutcome rmOutcome = .ok res ∧
      res.isRunning = false ∧
      res.removeAttempts = st.docker_build.map (fun p => p.2.imageName) ∧
      res.deleteAttempts = st.k8s_yaml.map (fun p => p.2.yamlPath) ∧
      (∀ delOutcome' rmOutcome' : String → Except String Unit,
        (down st delOutcome' rmOutcome').map DownResult.removeAttempts =
          (down st delOutcome rmOutcome).map DownResult.removeAttempts ∧
        (down st delOutcome' rmOutcome').map DownResult.deleteAttempts =
          (down st delOutcome rmOutcome).map DownResult.deleteAttempts) := by
  refine ⟨_, rfl, rfl, rfl, rfl, ?_⟩
  intro d' r'
  simp [down, Except.map]

/-- C7: with dryRun set, once the engine is not already running and the
preflight checks pass, up performs exactly one effect — printing the full
change set computed by the diff — and returns ok: no image removal or
build, no manifest delete or apply, no live session, no persist, no rebase
appear in the trace.  For the scenario state whose only change is the newly
registered build app, that printed change set is exactly one added record
at path docker_build, app carrying the registered spec. -/
theorem claim_C7 :
    (∀ (w : UpWorld) (devMode : Bool) (initialState st : GlobalTiltState),
      w.k8sReady = true → w.dockerOk = true →
      ¬((st.docker_build.isEmpty && st.k8s_yaml.isEmpty) = true) →
      up w true devMode false initialState st =
        ([.printChanges (analyzeChanges initialState st)], .ok ())) ∧
    analyzeChanges defaultTiltState appRegisteredState =
      [⟨.added, ["docker_build", "app"], some (encodeBuild appBuildConfig), none⟩] := by
  constructor
  · intro w devMode initialState st hk hd hres
    rw [up, if_neg (by simp), if_neg (by simp [hk]), if_neg (by simp [hd]),
      if_neg hres, if_pos rfl]
  · simp [analyzeChanges, appRegisteredState, defaultTiltState, appBuildConfig,
      encodeState, encodeBuild, jdiffVal, jdiffFields, jdiffNew, lookupF, containsKey,
      convertDiffToChange]

/-- C7 witness: the theorem at the scenario inputs — a world whose
preflight checks pass and the state with only the app build registered. -/
theorem claim_C7_witness :
    up ⟨true, true, fun _ => true, fun _ => true, true⟩ true true false
        defaultTiltState appRegisteredState =
      ([.printChanges (analyzeChanges defaultTiltState appRegisteredState)], .ok ()) :=
  claim_C7.1 ⟨true, true, fun _ => true, fun _ => true, true⟩ true
    defaultTiltState appRegisteredState rfl rfl (by decide)

theorem lookupF_eq_none_of_not_mem {α : Type} {k : String} {l : List (String × α)}
    (h : ¬(k ∈ keysOf l)) : lookupF k l = none := by
  induction l with
  | nil => rfl
  | cons p rest ih =>
      obtain ⟨k', v⟩ := p
      simp [keysOf] at h
      rw [lookupF, if_neg h.1]
      exact ih (by simp [keysOf]; exact h.2)

/-- C9: loading the store never throws for any file condition — for an
absent, unreadable or unparseable persisted file the constructed defaults
stay in place (with a warning for the unreadable and unparseable cases) —
and after every load the namespace of the resulting state equals
normalizeNamespace applied to the value that came out of the load. -/
theorem claim_C9 (cond : FileCond) (tc : TiltConfigModel) (h : tc.inited = false) :
    ((cond = .absent ∨ cond = .unreadable ∨ cond = .invalidJson) →
      (initConfig cond tc).1.state =
        { tc.state with k8sNamespace := normalizeNamespace tc.state.k8sNamespace } ∧
      ((cond = .unreadable ∨ cond = .invalidJson) → (initConfig cond tc).2 ≠ [])) ∧
    (initConfig cond tc).1.state.k8sNamespace =
      normalizeNamespace (getCachedConfig cond tc.state).1.k8sNamespace ∧
    (initConfig cond tc).1.inited = true := by
  cases cond with
  | absent => simp [initConfig, getCachedConfig, readAndParse, h]
  | unreadable => simp [initConfig, getCachedConfig, readAndParse, h]
  | invalidJson => simp [initConfig, getCachedConfig, readAndParse, h]
  | valid doc => simp [initConfig, getCachedConfig, readAndParse, h]

/-- C9 witness: the theorem at an unparseable persisted file on a freshly
constructed store. -/
theorem claim_C9_witness :
    ((FileCond.invalidJson = FileCond.absent ∨ FileCond.invalidJson = FileCond.unreadable ∨
        FileCond.invalidJson = FileCond.invalidJson) →
      (initConfig .invalidJson newTiltConfig).1.state =
        { newTiltConfig.state with
            k8sNamespace := normalizeNamespace newTiltConfig.state.k8sNamespace } ∧
      ((FileCond.invalidJson = FileCond.unreadable ∨
          FileCond.invalidJson = FileCond.invalidJson) →
        (initConfig .invalidJson newTiltConfig).2 ≠ [])) ∧
    (initConfig .invalidJson newTiltConfig).1.state.k8sNamespace =
      normalizeNamespace (getCachedConfig .invalidJson newTiltConfig.state).1.k8sNamespace ∧
    (initConfig .invalidJson newTiltConfig).1.inited = true :=
  claim_C9 .invalidJson newTiltConfig rfl

/-- C10: a registration made before the first load completes is discarded
when a persisted file exists — addDockerBuild writes the entry into the
live state synchronously (it is visible before init), but init replaces
the whole state with the loaded document, so afterwards the entry is gone
whenever the persisted document does not contain it. -/
theorem claim_C10 (doc : GlobalTiltState) (k : String) (c : DockerBuildConfig)
    (h : ¬(k ∈ keysOf doc.docker_build)) :
    lookupF k (addDockerBuild k c newTiltConfig).state.docker_build = some c ∧
    lookupF k
      ((initConfig (.valid doc) (addDockerBuild k c newTiltConfig)).1.state.docker_build) =
      none := by
  constructor
  · simp [addDockerBuild, newTiltConfig, defaultTiltState, upsert, lookupF]
  · rw [initConfig, if_neg (by simp [addDockerBuild, newTiltConfig])]
    simp only [getCachedConfig, readAndParse]
    exact lookupF_eq_none_of_not_mem h

/-- C10 witness: register app on a fresh store, then init against a
persisted document without it (the default document): the entry is visible
before init and gone after. -/
theorem claim_C10_witness :
    lookupF "app" (addDockerBuild "app" appBuildConfig newTiltConfig).state.docker_build =
      some appBuildConfig ∧
    lookupF "app"
      ((initConfig (.valid defaultTiltState)
        (addDockerBuild "app" appBuildConfig newTiltConfig)).1.state.docker_build) = none :=
  claim_C10 defaultTiltState "app" appBuildConfig (by decide)

theorem jdiffVal_path_shape (path : List String) (l r : JVal) :
    ∀ rec ∈ jdiffVal path l r,
      ∃ t, rec.path = path ++ t ∧
        (t = [] → rec = DiffRec.e path l r ∧ JVal.bothObj l r = false) := by
  induction path, l, r using jdiffVal.induct with
  | motive2 path lf rf =>
      exact ∀ rec ∈ jdiffFields path lf rf,
        ∃ k t, k ∈ keysOf lf ∧ rec.path = path ++ k :: t
  | case1 path lf rf ih =>
      intro rec hrec
      simp only [jdiffVal] at hrec
      rcases List.mem_append.mp hrec with hrec | hrec
      · obtain ⟨k, t, hk, hp⟩ := ih rec hrec
        exact ⟨k :: t, hp, fun h => by cases h⟩
      · simp only [jdiffNew, List.mem_map] at hrec
        obtain ⟨p, hpmem, hrec⟩ := hrec
        refine ⟨[p.1], ?_, fun h => by cases h⟩
        rw [← hrec]
        rfl
  | case2 path r hno =>
      intro rec hrec
      have heq : jdiffVal path r r = [] := by
        cases r with
        | str s => simp [jdiffVal]
        | obj f => exact (hno f f rfl rfl).elim
      rw [heq] at hrec
      cases hrec
  | case3 path l r hno hne =>
      intro rec hrec
      have hbo : JVal.bothObj l r = false := by
        cases l with
        | str s => cases r <;> rfl
        | obj lf =>
            cases r with
            | str t => rfl
            | obj rf => exact (hno lf rf rfl rfl).elim
      have heq : jdiffVal path l r = [DiffRec.e path l r] := by
        cases l with
        | str s => cases r <;> simp_all [jdiffVal]
        | obj lf =>
            cases r with
            | str t => simp_all [jdiffVal]
            | obj rf => exact (hno lf rf rfl rfl).elim
      rw [heq] at hrec
      rcases List.mem_singleton.mp hrec with rfl
      exact ⟨[], List.append_nil _ ▸ rfl, fun _ => ⟨rfl, hbo⟩⟩
  | case4 path rf =>
      intro rec hrec
      simp [jdiffFields] at hrec
  | case5 path k v rest rf ih1 ih2 =>
      intro rec hrec
      simp only [jdiffFields] at hrec
      rcases List.mem_append.mp hrec with hrec | hrec
      · cases hl : lookupF k rf with
        | none =>
            rw [hl] at hrec
            rcases List.mem_singleton.mp hrec with rfl
            exact ⟨k, [], by simp [keysOf], rfl⟩
        | some w =>
            rw [hl] at hrec
            obtain ⟨t, hp, _⟩ := ih1 w rec hrec
            refine ⟨k, t, by simp [keysOf], ?_⟩
            rw [hp, List.append_assoc]
            rfl
      · obtain ⟨k', t, hk', hp⟩ := ih2 rec hrec
        exact ⟨k', t, by simp [keysOf] at hk' ⊢; right; exact hk', hp⟩

theorem jdiffFields_path_shape (path : List String) (lf rf : List (String × JVal)) :
    ∀ rec ∈ jdiffFields path lf rf,
      ∃ k t, k ∈ keysOf lf ∧ rec.path = path ++ k :: t := by
  induction path, lf, rf using jdiffFields.induct with
  | motive1 path l r => exact True
  | case1 _ _ _ _ => trivial
  | case2 _ _ _ => trivial
  | case3 _ _ _ _ _ => trivial
  | case4 path rf =>
      intro rec hrec
      simp [jdiffFields] at hrec
  | case5 path k v rest rf ih1 ih2 =>
      intro rec hrec
      simp only [jdiffFields] at hrec
      rcases List.mem_append.mp hrec with hrec | hrec
      · cases hl : lookupF k rf with
        | none =>
            rw [hl] at hrec
            rcases List.mem_singleton.mp hrec with rfl
            exact ⟨k, [], by simp [keysOf], rfl⟩
        | some w =>
            rw [hl] at hrec
            obtain ⟨t, hp, _⟩ := jdiffVal_path_shape (path ++ [k]) v w rec hrec
            refine ⟨k, t, by simp [keysOf], ?_⟩
            rw [hp, List.append_assoc]
            rfl
      · obtain ⟨k', t, hk', hp⟩ := ih2 rec hrec
        exact ⟨k', t, by simp [keysOf] at hk' ⊢; right; exact hk', hp⟩

theorem mem_keysOf_of_mem {α : Type} {k : String} {v : α} {l : List (String × α)}
    (h : (k, v) ∈ l) : k ∈ keysOf l := by
  simp [keysOf]
  exact ⟨v, h⟩

theorem lookupF_of_nodup_mem {α : Type} {k : String} {v : α} {l : List (String × α)}
    (hnd : (keysOf l).Nodup) (hm : (k, v) ∈ l) : lookupF k l = some v := by
  induction l with
  | nil => cases hm
  | cons p rest ih =>
      obtain ⟨k', v'⟩ := p
      simp only [keysOf, List.map_cons, List.nodup_cons] at hnd
      rcases List.mem_cons.mp hm with heq | hm'
      · injection heq with h1 h2
        subst h1
        subst h2
        simp [lookupF]
      · by_cases hk : k = k'
        · subst hk
          exact absurd (mem_keysOf_of_mem hm') hnd.1
        · rw [lookupF, if_neg hk]
          exact ih hnd.2 hm'

theorem containsKey_of_mem {α : Type} {k : String} {v : α} {l : List (String × α)}
    (h : (k, v) ∈ l) : containsKey k l = true := by
  rw [containsKey, List.any_eq_true]
  exact ⟨(k, v), h, by simp⟩

theorem jdiffNew_self (path : List String) (lf : List (String × JVal)) :
    jdiffNew path lf lf = [] := by
  rw [jdiffNew]
  have : lf.filter (fun p => !(containsKey p.1 lf)) = [] := by
    rw [List.filter_eq_nil_iff]
    intro p hp
    simp [containsKey_of_mem (v := p.2) (by simpa using hp)]
  rw [this]
  rfl

theorem jdiffVal_self (path : List String) (l : JVal) (hw : WfKeys l) :
    jdiffVal path l l = [] := by
  have main : ∀ (path : List String) (a b : JVal), WfKeys a → a = b →
      jdiffVal path a b = [] := by
    intro path a b
    induction path, a, b using jdiffVal.induct with
    | motive2 path lf rf =>
        exact (∀ k v, (k, v) ∈ lf → lookupF k rf = some v ∧ WfKeys v) →
          jdiffFields path lf rf = []
    | case1 path lf rf ih =>
        intro hw heq
        have hlf : lf = rf := by injection heq
        subst hlf
        cases hw with
        | obj _ hnd hch =>
            simp only [jdiffVal, jdiffNew_self, List.append_nil]
            exact ih (fun k v hm => ⟨lookupF_of_nodup_mem hnd hm, hch k v hm⟩)
    | case2 path r hno =>
        intro hw _
        cases r with
        | str s => simp [jdiffVal]
        | obj f => exact (hno f f rfl rfl).elim
    | case3 path l r hno hne =>
        intro _ heq
        exact absurd heq hne
    | case4 path rf =>
        intro _
        simp [jdiffFields]
    | case5 path k v rest rf ih1 ih2 =>
        intro hprem
        obtain ⟨hlk, hwv⟩ := hprem k v (List.mem_cons_self _ _)
        simp only [jdiffFields, hlk]
        rw [ih1 v hwv rfl, ih2 (fun k' v' hm => hprem k' v' (List.mem_cons_of_mem _ hm))]
        rfl
  exact main path l l hw rfl

theorem take_append_cons (b : List String) (j : String) (t : List String) :
    (b ++ j :: t).take (b.length + 1) = b ++ [j] := by
  rw [List.take_append_eq_append_take, List.take_of_length_le (by omega)]
  simp

theorem take_self_append (b : List String) (j : String) :
    (b ++ [j]).take (b.length + 1) = b ++ [j] := by
  rw [List.take_of_length_le (by simp)]

theorem append_cons_eq_append_singleton {b : List String} {j k : String} {t : List String}
    (h : b ++ j :: t = b ++ [k]) : j = k ∧ t = [] := by
  have h2 : j :: t = [k] := by
    exact List.append_cancel_left h
  injection h2 with h3 h4
  exact ⟨h3, h4⟩

theorem head_take_succ {α : Type} (n : Nat) (l : List α) :
    (l.take (n + 1)).head? = l.head? := by
  cases l <;> rfl

theorem lookupF_none_not_mem {α : Type} {k : String} {l : List (String × α)}
    (h : lookupF k l = none) : ¬(k ∈ keysOf l) := by
  intro hm
  simp [keysOf] at hm
  obtain ⟨v, hv⟩ := hm
  induction l with
  | nil => cases hv
  | cons p rest ih =>
      obtain ⟨k', v'⟩ := p
      rcases List.mem_cons.mp hv with heq | hm'
      · injection heq with h1 h2
        subst h1
        simp [lookupF] at h
      · by_cases hk : k = k'
        · simp [lookupF, hk] at h
        · rw [lookupF, if_neg hk] at h
          exact ih h hm'

theorem countP_singleton_false {α : Type} (p : α → Bool) (a : α) (h : p a = false) :
    List.countP p [a] = 0 := by
  simp [List.countP_cons, h]

theorem jdiffFields_no_key {b : List String} {A B : List (String × JVal)} {k : String}
    (h : ¬(k ∈ keysOf A)) :
    ∀ rec ∈ jdiffFields b A B,
      ¬(rec.path = b ++ [k]) ∧ ¬(rec.path.take (b.length + 1) = b ++ [k]) := by
  intro rec hrec
  obtain ⟨j, t, hj, hp⟩ := jdiffFields_path_shape b A B rec hrec
  have hjk : ¬(j = k) := fun hh => h (hh ▸ hj)
  constructor
  · intro hh
    rw [hp] at hh
    exact hjk (append_cons_eq_append_singleton hh).1
  · intro hh
    rw [hp, take_append_cons] at hh
    exact hjk (by simpa using hh)

theorem jdiffVal_head_path {s : String} {b : List String} {l r : JVal} :
    ∀ rec ∈ jdiffVal (s :: b) l r, rec.path.head? = some s := by
  intro rec hrec
  obtain ⟨t, hp, _⟩ := jdiffVal_path_shape (s :: b) l r rec hrec
  rw [hp]
  rfl

theorem countP_key_zero {α : Type} {k : String} {B : List (String × α)}
    (h : ¬(k ∈ keysOf B)) : List.countP (fun p => decide (p.1 = k)) B = 0 := by
  rw [List.countP_eq_zero]
  intro p hp
  simp
  intro hk
  exact h (hk ▸ mem_keysOf_of_mem (v := p.2) (by simpa using hp))

theorem countP_key_one {α : Type} {k : String} {B : List (String × α)}
    (hnd : (keysOf B).Nodup) (hm : k ∈ keysOf B) :
    List.countP (fun p => decide (p.1 = k)) B = 1 := by
  induction B with
  | nil => simp [keysOf] at hm
  | cons p rest ih =>
      obtain ⟨k', v'⟩ := p
      simp only [keysOf, List.map_cons, List.nodup_cons] at hnd
      by_cases hk : k' = k
      · subst hk
        rw [List.countP_cons]
        simp only [decide_eq_true_eq]
        rw [countP_key_zero (by exact hnd.1)]
        simp
      · rw [List.countP_cons]
        have hm' : k ∈ keysOf rest := by
          simp [keysOf] at hm ⊢
          rcases hm with hm | hm
          · exact absurd hm.symm hk
          · exact hm
        rw [ih hnd.2 hm']
        simp [hk]

theorem containsKey_eq_false {α : Type} {k : String} {l : List (String × α)}
    (h : ¬(k ∈ keysOf l)) : containsKey k l = false := by
  rw [containsKey]
  rw [List.any_eq_false]
  intro p hp
  simp
  intro hk
  exact h (hk ▸ mem_keysOf_of_mem (v := p.2) (by simpa using hp))

theorem jdiffNew_recs {b : List String} {A B : List (String × JVal)} :
    ∀ rec ∈ jdiffNew b A B, rec.kindN = true ∧
      ∃ j, ¬(j ∈ keysOf A) ∧ j ∈ keysOf B ∧ rec.path = b ++ [j] := by
  intro rec hrec
  simp only [jdiffNew, List.mem_map] at hrec
  obtain ⟨p, hp, hrec⟩ := hrec
  subst hrec
  rw [List.mem_filter] at hp
  refine ⟨rfl, p.1, ?_, mem_keysOf_of_mem (v := p.2) (by simpa using hp.1), rfl⟩
  intro hmem
  have h2 := hp.2
  simp [keysOf] at hmem
  obtain ⟨v, hv⟩ := hmem
  rw [containsKey_of_mem hv] at h2
  simp at h2

theorem countP_jdiffNew_one {b : List String} {A B : List (String × JVal)} {k : String}
    (hnd : (keysOf B).Nodup) (hmB : k ∈ keysOf B) (hmA : ¬(k ∈ keysOf A)) :
    List.countP (fun rec => decide (rec.path = b ++ [k])) (jdiffNew b A B) = 1 := by
  rw [jdiffNew, List.countP_map, List.countP_filter]
  rw [List.countP_congr (q := fun p : String × JVal => decide (p.1 = k))]
  · exact countP_key_one hnd hmB
  · intro p hp
    by_cases hpk : p.1 = k
    · simp [DiffRec.path, hpk, containsKey_eq_false hmA]
    · simp [DiffRec.path, hpk]

theorem countP_eq_zero_of_no_key {b : List String} {A B : List (String × JVal)} {k : String}
    (h : ¬(k ∈ keysOf A)) (q : DiffRec → Bool)
    (hq : ∀ rec, q rec = true → rec.path.take (b.length + 1) = b ++ [k]) :
    List.countP q (jdiffFields b A B) = 0 := by
  rw [List.countP_eq_zero]
  intro rec hrec hqr
  exact (jdiffFields_no_key h rec hrec).2 (hq rec hqr)

theorem head_mem_eq_of_nodup {k : String} {v u : JVal}
    {rest : List (String × JVal)}
    (hnd : (keysOf ((k, u) :: rest)).Nodup) (hm : (k, v) ∈ (k, u) :: rest) : u = v := by
  have := lookupF_of_nodup_mem hnd hm
  simp [lookupF] at this
  exact this

theorem countP_jdiffFields_present {b : List String} {B : List (String × JVal)} {k : String}
    {v w : JVal} (q : DiffRec → Bool)
    (hq : ∀ rec, q rec = true → rec.path.take (b.length + 1) = b ++ [k]) :
    ∀ A : List (String × JVal), (keysOf A).Nodup → (k, v) ∈ A → lookupF k B = some w →
    List.countP q (jdiffFields b A B) = List.countP q (jdiffVal (b ++ [k]) v w) := by
  intro A
  induction A with
  | nil => intro _ hm; cases hm
  | cons p rest ih =>
      intro hnd hm hlk
      obtain ⟨j, u⟩ := p
      by_cases hjk : j = k
      · subst hjk
        have huv : u = v := head_mem_eq_of_nodup hnd hm
        subst huv
        simp only [jdiffFields, hlk, List.countP_append]
        have hknotrest : ¬(j ∈ keysOf rest) := by
          simp only [keysOf, List.map_cons, List.nodup_cons] at hnd
          exact hnd.1
        rw [countP_eq_zero_of_no_key hknotrest q hq]
        omega
      · have hm' : (k, v) ∈ rest := by
          rcases List.mem_cons.mp hm with heq | hm'
          · injection heq with h1 _
            exact absurd h1.symm hjk
          · exact hm'
        have hnd' : (keysOf rest).Nodup := by
          simp only [keysOf, List.map_cons, List.nodup_cons] at hnd
          exact hnd.2
        simp only [jdiffFields, List.countP_append]
        have hzero : List.countP q
            (match lookupF j B with
             | none => [DiffRec.d (b ++ [j]) u]
             | some w' => jdiffVal (b ++ [j]) u w') = 0 := by
          cases hlj : lookupF j B with
          | none =>
              rw [List.countP_eq_zero]
              intro rec hrec hqr
              rcases List.mem_singleton.mp hrec with rfl
              have := hq _ hqr
              rw [DiffRec.path, take_self_append] at this
              exact hjk (by simpa using this)
          | some w' =>
              rw [List.countP_eq_zero]
              intro rec hrec hqr
              obtain ⟨t, hp, _⟩ := jdiffVal_path_shape (b ++ [j]) u w' rec hrec
              have hqq := hq _ hqr
              rw [hp, List.append_assoc, List.singleton_append, take_append_cons] at hqq
              exact hjk (by simpa using hqq)
        rw [hzero, ih hnd' hm' hlk]
        omega

theorem countP_jdiffFields_absent {b : List String} {B : List (String × JVal)} {k : String}
    {v : JVal} (q : DiffRec → Bool)
    (hq : ∀ rec, q rec = true → rec.path.take (b.length + 1) = b ++ [k]) :
    ∀ A : List (String × JVal), (keysOf A).Nodup → (k, v) ∈ A → lookupF k B = none →
    List.countP q (jdiffFields b A B) = List.countP q [DiffRec.d (b ++ [k]) v] := by
  intro A
  induction A with
  | nil => intro _ hm; cases hm
  | cons p rest ih =>
      intro hnd hm hlk
      obtain ⟨j, u⟩ := p
      by_cases hjk : j = k
      · subst hjk
        have huv : u = v := head_mem_eq_of_nodup hnd hm
        subst huv
        simp only [jdiffFields, hlk, List.countP_append]
        have hknotrest : ¬(j ∈ keysOf rest) := by
          simp only [keysOf, List.map_cons, List.nodup_cons] at hnd
          exact hnd.1
        rw [countP_eq_zero_of_no_key hknotrest q hq]
        omega
      · have hm' : (k, v) ∈ rest := by
          rcases List.mem_cons.mp hm with heq | hm'
          · injection heq with h1 _
            exact absurd h1.symm hjk
          · exact hm'
        have hnd' : (keysOf rest).Nodup := by
          simp only [keysOf, List.map_cons, List.nodup_cons] at hnd
          exact hnd.2
        simp only [jdiffFields, List.countP_append]
        have hzero : List.countP q
            (match lookupF j B with
             | none => [DiffRec.d (b ++ [j]) u]
             | some w' => jdiffVal (b ++ [j]) u w') = 0 := by
          cases hlj : lookupF j B with
          | none =>
              rw [List.countP_eq_zero]
              intro rec hrec hqr
              rcases List.mem_singleton.mp hrec with rfl
              have hqq := hq _ hqr
              rw [DiffRec.path, take_self_append] at hqq
              exact hjk (by simpa using hqq)
          | some w' =>
              rw [List.countP_eq_zero]
              intro rec hrec hqr
              obtain ⟨t, hp, _⟩ := jdiffVal_path_shape (b ++ [j]) u w' rec hrec
              have hqq := hq _ hqr
              rw [hp, List.append_assoc, List.singleton_append, take_append_cons] at hqq
              exact hjk (by simpa using hqq)
        rw [hzero, ih hnd' hm' hlk]
        omega

theorem countP_jdiffVal_bothObj {p : List String} {v w : JVal}
    (hb : JVal.bothObj v w = true) (q : DiffRec → Bool)
    (hq : ∀ rec, q rec = true → rec.path = p) :
    List.countP q (jdiffVal p v w) = 0 := by
  rw [List.countP_eq_zero]
  intro rec hrec hqr
  obtain ⟨t, hp, ht⟩ := jdiffVal_path_shape p v w rec hrec
  cases t with
  | nil =>
      obtain ⟨_, hb'⟩ := ht rfl
      rw [hb'] at hb
      cases hb
  | cons x xs =>
      have := hq rec hqr
      rw [hp] at this
      have hlen := congrArg List.length this
      simp at hlen

theorem analyzeChanges_decomp (o n : GlobalTiltState) :
    analyzeChanges o n =
      (jdiffVal ["docker"] (.obj [("registry", .str o.registry)])
         (.obj [("registry", .str n.registry)]) ++
       jdiffVal ["k8s"]
         (.obj [("context", .str o.context), ("namespace", .str o.k8sNamespace)])
         (.obj [("context", .str n.context), ("namespace", .str n.k8sNamespace)]) ++
       jdiffVal ["docker_build"]
         (.obj (o.docker_build.map (fun p => (p.1, encodeBuild p.2))))
         (.obj (n.docker_build.map (fun p => (p.1, encodeBuild p.2)))) ++
       jdiffVal ["k8s_yaml"]
         (.obj (o.k8s_yaml.map (fun p => (p.1, encodeYaml p.2))))
         (.obj (n.k8s_yaml.map (fun p => (p.1, encodeYaml p.2))))).map
        convertDiffToChange := by
  rw [analyzeChanges, encodeState, encodeState]
  set d1 := JVal.obj [("registry", JVal.str o.registry)] with hd1
  set e1 := JVal.obj [("registry", JVal.str n.registry)] with he1
  set d2 := JVal.obj [("context", JVal.str o.context), ("namespace", JVal.str o.k8sNamespace)] with hd2
  set e2 := JVal.obj [("context", JVal.str n.context), ("namespace", JVal.str n.k8sNamespace)] with he2
  set d3 := JVal.obj (o.docker_build.map (fun p => (p.1, encodeBuild p.2))) with hd3
  set e3 := JVal.obj (n.docker_build.map (fun p => (p.1, encodeBuild p.2))) with he3
  set d4 := JVal.obj (o.k8s_yaml.map (fun p => (p.1, encodeYaml p.2))) with hd4
  set e4 := JVal.obj (n.k8s_yaml.map (fun p => (p.1, encodeYaml p.2))) with he4
  simp only [jdiffVal, jdiffFields, jdiffNew, lookupF, containsKey]
  simp

theorem countP_component_zero (s : String) {s' : String} {b : List String} {l r : JVal}
    (q' : DiffRec → Bool) (hss : ¬(s = s'))
    (hq : ∀ rec, q' rec = true → rec.path.head? = some s') :
    List.countP q' (jdiffVal (s :: b) l r) = 0 := by
  rw [List.countP_eq_zero]
  intro rec hrec hqr
  have h1 := jdiffVal_head_path rec hrec
  have h2 := hq rec hqr
  rw [h1] at h2
  injection h2 with h3
  exact hss h3

theorem exists_of_mem_keysOf {α : Type} {k : String} {l : List (String × α)}
    (h : k ∈ keysOf l) : ∃ v, (k, v) ∈ l := by
  simp [keysOf] at h
  exact h

theorem lookupF_some_mem {α : Type} {k : String} {v : α} {l : List (String × α)}
    (h : lookupF k l = some v) : (k, v) ∈ l := by
  induction l with
  | nil => cases h
  | cons p rest ih =>
      obtain ⟨k', v'⟩ := p
      by_cases hk : k = k'
      · subst hk
        simp [lookupF] at h
        subst h
        exact List.mem_cons_self _ _
      · rw [lookupF, if_neg hk] at h
        exact List.mem_cons_of_mem _ (ih h)

theorem coll_added_counts {s : String} {A B : List (String × JVal)} {k : String}
    (hndB : (keysOf B).Nodup) (hmB : k ∈ keysOf B) (hmA : ¬(k ∈ keysOf A)) :
    (jdiffVal [s] (.obj A) (.obj B)).countP
      (fun rec => decide (rec.path = [s, k]) && rec.kindN) = 1 ∧
    (jdiffVal [s] (.obj A) (.obj B)).countP
      (fun rec => decide (rec.path = [s, k]) && !rec.kindN) = 0 := by
  have hpath : ([s] : List String) ++ [k] = [s, k] := rfl
  constructor
  · simp only [jdiffVal, List.countP_append]
    rw [countP_eq_zero_of_no_key hmA _ (fun rec h => by
      simp at h
      rw [h.1, ← hpath, take_self_append])]
    rw [List.countP_congr (q := fun rec => decide (rec.path = [s] ++ [k]))]
    · rw [countP_jdiffNew_one hndB hmB hmA]
    · intro rec hrec
      have := (jdiffNew_recs rec hrec).1
      simp [this, hpath]
  · simp only [jdiffVal, List.countP_append]
    rw [countP_eq_zero_of_no_key hmA _ (fun rec h => by
      simp at h
      rw [h.1, ← hpath, take_self_append])]
    have : List.countP (fun rec => decide (rec.path = [s, k]) && !rec.kindN)
        (jdiffNew [s] A B) = 0 := by
      rw [List.countP_eq_zero]
      intro rec hrec hqr
      have := (jdiffNew_recs rec hrec).1
      simp [this] at hqr
    omega

theorem coll_removed_counts {s : String} {A B : List (String × JVal)} {k : String} {v : JVal}
    (hndA : (keysOf A).Nodup) (hmA : (k, v) ∈ A) (hlkB : lookupF k B = none) :
    (jdiffVal [s] (.obj A) (.obj B)).countP
      (fun rec => decide (rec.path = [s, k]) && rec.kindD) = 1 ∧
    (jdiffVal [s] (.obj A) (.obj B)).countP
      (fun rec => decide (rec.path = [s, k]) && !rec.kindD) = 0 := by
  have hpath : ([s] : List String) ++ [k] = [s, k] := rfl
  have hmBne : ¬(k ∈ keysOf B) := lookupF_none_not_mem hlkB
  have hnew : ∀ q' : DiffRec → Bool,
      (∀ rec, q' rec = true → rec.path = [s, k]) →
      List.countP q' (jdiffNew [s] A B) = 0 := by
    intro q' hq'
    rw [List.countP_eq_zero]
    intro rec hrec hqr
    obtain ⟨_, j, hjA, hjB, hjp⟩ := jdiffNew_recs rec hrec
    have := hq' rec hqr
    rw [hjp] at this
    have hjk : j = k := by simpa using this
    exact hjA (hjk ▸ mem_keysOf_of_mem hmA)
  constructor
  · simp only [jdiffVal, List.countP_append]
    rw [countP_jdiffFields_absent _ (fun rec h => by
        simp at h
        rw [h.1, ← hpath, take_self_append]) A hndA hmA hlkB]
    rw [hnew _ (fun rec h => by simp at h; exact h.1)]
    simp [List.countP_cons, DiffRec.path, DiffRec.kindD, hpath]
  · simp only [jdiffVal, List.countP_append]
    rw [countP_jdiffFields_absent _ (fun rec h => by
        simp at h
        rw [h.1, ← hpath, take_self_append]) A hndA hmA hlkB]
    rw [hnew _ (fun rec h => by simp at h; exact h.1)]
    simp [List.countP_cons, DiffRec.path, DiffRec.kindD, hpath]

theorem coll_present_zero {s : String} {A B : List (String × JVal)} {k : String} {v w : JVal}
    (hndA : (keysOf A).Nodup) (hlkA : lookupF k A = some v) (hlkB : lookupF k B = some w)
    (hvw : List.countP (fun rec => decide (rec.path.take 2 = [s, k]))
      (jdiffVal [s, k] v w) = 0) :
    (jdiffVal [s] (.obj A) (.obj B)).countP
      (fun rec => decide (rec.path.take 2 = [s, k])) = 0 := by
  have hpath : ([s] : List String) ++ [k] = [s, k] := rfl
  have hmA : (k, v) ∈ A := lookupF_some_mem hlkA
  have hnew : List.countP (fun rec => decide (rec.path.take 2 = [s, k]))
      (jdiffNew [s] A B) = 0 := by
    rw [List.countP_eq_zero]
    intro rec hrec hqr
    obtain ⟨_, j, hjA, hjB, hjp⟩ := jdiffNew_recs rec hrec
    rw [hjp] at hqr
    simp at hqr
    exact hjA (hqr ▸ mem_keysOf_of_mem hmA)
  simp only [jdiffVal, List.countP_append]
  rw [countP_jdiffFields_present _ (fun rec h => by simpa using h) A hndA hmA hlkB]
  rw [hnew]
  have : ([s] : List String).length + 1 = 2 := rfl
  rw [← hpath] at hvw ⊢
  omega

theorem coll_equal_zero {s : String} {A B : List (String × JVal)} {k : String} {v : JVal}
    (hndA : (keysOf A).Nodup) (hlkA : lookupF k A = some v) (hlkB : lookupF k B = some v)
    (hwf : WfKeys v) :
    (jdiffVal [s] (.obj A) (.obj B)).countP
      (fun rec => decide (rec.path.take 2 = [s, k])) = 0 := by
  apply coll_present_zero hndA hlkA hlkB
  rw [jdiffVal_self _ _ hwf]
  rfl

theorem convert_path_eq (rec : DiffRec) :
    (convertDiffToChange rec).path = rec.path := by
  cases rec <;> rfl

theorem convert_added_eq (P : List String) (rec : DiffRec) :
    ((decide ((convertDiffToChange rec).path = P) &&
      ((convertDiffToChange rec).type == ChangeType.added)) : Bool) =
    (decide (rec.path = P) && rec.kindN) := by
  cases rec <;> rfl

theorem convert_removed_eq (P : List String) (rec : DiffRec) :
    ((decide ((convertDiffToChange rec).path = P) &&
      ((convertDiffToChange rec).type == ChangeType.removed)) : Bool) =
    (decide (rec.path = P) && rec.kindD) := by
  cases rec <;> rfl

theorem convert_take_eq (P : List String) (rec : DiffRec) :
    (decide ((convertDiffToChange rec).path.take 2 = P) : Bool) =
    decide (rec.path.take 2 = P) := by
  cases rec <;> rfl

theorem keysOf_map_encode {α β : Type} (f : α → β) (l : List (String × α)) :
    keysOf (l.map (fun p => (p.1, f p.2))) = keysOf l := by
  simp [keysOf, List.map_map]

theorem lookupF_map_encode {α β : Type} (f : α → β) (k : String) (l : List (String × α)) :
    lookupF k (l.map (fun p => (p.1, f p.2))) = (lookupF k l).map f := by
  induction l with
  | nil => rfl
  | cons p rest ih =>
      obtain ⟨k', v⟩ := p
      by_cases hk : k = k'
      · simp [lookupF, hk]
      · simp only [List.map_cons, lookupF, if_neg hk]
        exact ih

theorem countP_analyze_db (old new : GlobalTiltState) (p : TiltStateChange → Bool)
    (q : DiffRec → Bool) (hpq : ∀ rec, p (convertDiffToChange rec) = q rec)
    (hhead : ∀ rec, q rec = true → rec.path.head? = some "docker_build") :
    (analyzeChanges old new).countP p =
      (jdiffVal ["docker_build"]
        (.obj (old.docker_build.map (fun p => (p.1, encodeBuild p.2))))
        (.obj (new.docker_build.map (fun p => (p.1, encodeBuild p.2))))).countP q := by
  rw [analyzeChanges_decomp, List.countP_map]
  rw [List.countP_congr (q := q) (fun rec _ => by rw [Function.comp_apply, hpq])]
  simp only [List.countP_append]
  rw [countP_component_zero "docker" q (by decide) hhead,
    countP_component_zero "k8s" q (by decide) hhead,
    countP_component_zero "k8s_yaml" q (by decide) hhead]
  omega

theorem countP_analyze_ky (old new : GlobalTiltState) (p : TiltStateChange → Bool)
    (q : DiffRec → Bool) (hpq : ∀ rec, p (convertDiffToChange rec) = q rec)
    (hhead : ∀ rec, q rec = true → rec.path.head? = some "k8s_yaml") :
    (analyzeChanges old new).countP p =
      (jdiffVal ["k8s_yaml"]
        (.obj (old.k8s_yaml.map (fun p => (p.1, encodeYaml p.2))))
        (.obj (new.k8s_yaml.map (fun p => (p.1, encodeYaml p.2))))).countP q := by
  rw [analyzeChanges_decomp, List.countP_map]
  rw [List.countP_congr (q := q) (fun rec _ => by rw [Function.comp_apply, hpq])]
  simp only [List.countP_append]
  rw [countP_component_zero "docker" q (by decide) hhead,
    countP_component_zero "k8s" q (by decide) hhead,
    countP_component_zero "docker_build" q (by decide) hhead]
  omega

theorem head_take_two {α : Type} (l : List α) : (l.take 2).head? = l.head? := by
  cases l <;> rfl

/-- C2: in the diff of two states, a key present only in the new
build-spec mapping yields exactly one Added record at path docker_build,
key (and no record of another kind at that path); a key present only in
the old mapping yields exactly one Removed record there; a key present in
both with structurally equal (well-formed) values yields no record at all
for that key.  The same holds for the manifest mapping k8s_yaml.  Key sets
are assumed duplicate-free, as JavaScript object keys are. -/
theorem claim_C2 (old new : GlobalTiltState) (k : String)
    (hndO : (keysOf old.docker_build).Nodup) (hndN : (keysOf new.docker_build).Nodup)
    (hndOy : (keysOf old.k8s_yaml).Nodup) (hndNy : (keysOf new.k8s_yaml).Nodup) :
    (k ∈ keysOf new.docker_build → ¬(k ∈ keysOf old.docker_build) →
      (analyzeChanges old new).countP
        (fun c => decide (c.path = ["docker_build", k]) && (c.type == ChangeType.added)) = 1 ∧
      (analyzeChanges old new).countP
        (fun c => decide (c.path = ["docker_build", k]) && !(c.type == ChangeType.added)) = 0) ∧
    (k ∈ keysOf old.docker_build → ¬(k ∈ keysOf new.docker_build) →
      (analyzeChanges old new).countP
        (fun c => decide (c.path = ["docker_build", k]) && (c.type == ChangeType.removed)) = 1 ∧
      (analyzeChanges old new).countP
        (fun c => decide (c.path = ["docker_build", k]) && !(c.type == ChangeType.removed)) = 0) ∧
    (∀ v, lookupF k old.docker_build = some v → lookupF k new.docker_build = some v →
      WfKeys (encodeBuild v) →
      (analyzeChanges old new).countP
        (fun c => decide (c.path.take 2 = ["docker_build", k])) = 0) ∧
    (k ∈ keysOf new.k8s_yaml → ¬(k ∈ keysOf old.k8s_yaml) →
      (analyzeChanges old new).countP
        (fun c => decide (c.path = ["k8s_yaml", k]) && (c.type == ChangeType.added)) = 1 ∧
      (analyzeChanges old new).countP
        (fun c => decide (c.path = ["k8s_yaml", k]) && !(c.type == ChangeType.added)) = 0) ∧
    (k ∈ keysOf old.k8s_yaml → ¬(k ∈ keysOf new.k8s_yaml) →
      (analyzeChanges old new).countP
        (fun c => decide (c.path = ["k8s_yaml", k]) && (c.type == ChangeType.removed)) = 1 ∧
      (analyzeChanges old new).countP
        (fun c => decide (c.path = ["k8s_yaml", k]) && !(c.type == ChangeType.removed)) = 0) ∧
    (∀ v, lookupF k old.k8s_yaml = some v → lookupF k new.k8s_yaml = some v →
      (analyzeChanges old new).countP
        (fun c => decide (c.path.take 2 = ["k8s_yaml", k])) = 0) := by
  refine ⟨?_, ?_, ?_, ?_, ?_, ?_⟩
  · intro hmN hmO
    have hmN' : k ∈ keysOf (new.docker_build.map (fun p => (p.1, encodeBuild p.2))) := by
      rw [keysOf_map_encode]; exact hmN
    have hmO' : ¬(k ∈ keysOf (old.docker_build.map (fun p => (p.1, encodeBuild p.2)))) := by
      rw [keysOf_map_encode]; exact hmO
    have hndN' : (keysOf (new.docker_build.map (fun p => (p.1, encodeBuild p.2)))).Nodup := by
      rw [keysOf_map_encode]; exact hndN
    constructor
    · rw [countP_analyze_db old new _ (fun rec => decide (rec.path = ["docker_build", k]) && rec.kindN)
        (convert_added_eq _) (fun rec h => by rw [Bool.and_eq_true, decide_eq_true_eq] at h; rw [h.1]; rfl)]
      exact (coll_added_counts hndN' hmN' hmO').1
    · rw [countP_analyze_db old new _ (fun rec => decide (rec.path = ["docker_build", k]) && !rec.kindN)
        (fun rec => by cases rec <;> rfl) (fun rec h => by rw [Bool.and_eq_true, decide_eq_true_eq] at h; rw [h.1]; rfl)]
      exact (coll_added_counts hndN' hmN' hmO').2
  · intro hmO hmN
    obtain ⟨v, hv⟩ := exists_of_mem_keysOf hmO
    have hv' : (k, encodeBuild v) ∈ old.docker_build.map (fun p => (p.1, encodeBuild p.2)) :=
      List.mem_map.mpr ⟨(k, v), hv, rfl⟩
    have hlkB : lookupF k (new.docker_build.map (fun p => (p.1, encodeBuild p.2))) = none := by
      rw [lookupF_map_encode, lookupF_eq_none_of_not_mem hmN]
      rfl
    have hndO' : (keysOf (old.docker_build.map (fun p => (p.1, encodeBuild p.2)))).Nodup := by
      rw [keysOf_map_encode]; exact hndO
    constructor
    · rw [countP_analyze_db old new _ (fun rec => decide (rec.path = ["docker_build", k]) && rec.kindD)
        (convert_removed_eq _) (fun rec h => by rw [Bool.and_eq_true, decide_eq_true_eq] at h; rw [h.1]; rfl)]
      exact (coll_removed_counts hndO' hv' hlkB).1
    · rw [countP_analyze_db old new _ (fun rec => decide (rec.path = ["docker_build", k]) && !rec.kindD)
        (fun rec => by cases rec <;> rfl) (fun rec h => by rw [Bool.and_eq_true, decide_eq_true_eq] at h; rw [h.1]; rfl)]
      exact (coll_removed_counts hndO' hv' hlkB).2
  · intro v hlkO hlkN hwf
    have hlkO' : lookupF k (old.docker_build.map (fun p => (p.1, encodeBuild p.2))) =
        some (encodeBuild v) := by
      rw [lookupF_map_encode, hlkO]; rfl
    have hlkN' : lookupF k (new.docker_build.map (fun p => (p.1, encodeBuild p.2))) =
        some (encodeBuild v) := by
      rw [lookupF_map_encode, hlkN]; rfl
    have hndO' : (keysOf (old.docker_build.map (fun p => (p.1, encodeBuild p.2)))).Nodup := by
      rw [keysOf_map_encode]; exact hndO
    rw [countP_analyze_db old new _ (fun rec => decide (rec.path.take 2 = ["docker_build", k]))
      (convert_take_eq _) (fun rec h => by
        rw [decide_eq_true_eq] at h
        rw [← head_take_two, h]
        rfl)]
    exact coll_equal_zero hndO' hlkO' hlkN' hwf
  · intro hmN hmO
    have hmN' : k ∈ keysOf (new.k8s_yaml.map (fun p => (p.1, encodeYaml p.2))) := by
      rw [keysOf_map_encode]; exact hmN
    have hmO' : ¬(k ∈ keysOf (old.k8s_yaml.map (fun p => (p.1, encodeYaml p.2)))) := by
      rw [keysOf_map_encode]; exact hmO
    have hndN' : (keysOf (new.k8s_yaml.map (fun p => (p.1, encodeYaml p.2)))).Nodup := by
      rw [keysOf_map_encode]; exact hndNy
    constructor
    · rw [countP_analyze_ky old new _ (fun rec => decide (rec.path = ["k8s_yaml", k]) && rec.kindN)
        (convert_added_eq _) (fun rec h => by rw [Bool.and_eq_true, decide_eq_true_eq] at h; rw [h.1]; rfl)]
      exact (coll_added_counts hndN' hmN' hmO').1
    · rw [countP_analyze_ky old new _ (fun rec => decide (rec.path = ["k8s_yaml", k]) && !rec.kindN)
        (fun rec => by cases rec <;> rfl) (fun rec h => by rw [Bool.and_eq_true, decide_eq_true_eq] at h; rw [h.1]; rfl)]
      exact (coll_added_counts hndN' hmN' hmO').2
  · intro hmO hmN
    obtain ⟨v, hv⟩ := exists_of_mem_keysOf hmO
    have hv' : (k, encodeYaml v) ∈ old.k8s_yaml.map (fun p => (p.1, encodeYaml p.2)) :=
      List.mem_map.mpr ⟨(k, v), hv, rfl⟩
    have hlkB : lookupF k (new.k8s_yaml.map (fun p => (p.1, encodeYaml p.2))) = none := by
      rw [lookupF_map_encode, lookupF_eq_none_of_not_mem hmN]
      rfl
    have hndO' : (keysOf (old.k8s_yaml.map (fun p => (p.1, encodeYaml p.2)))).Nodup := by
      rw [keysOf_map_encode]; exact hndOy
    constructor
    · rw [countP_analyze_ky old new _ (fun rec => decide (rec.path = ["k8s_yaml", k]) && rec.kindD)
        (convert_removed_eq _) (fun rec h => by rw [Bool.and_eq_true, decide_eq_true_eq] at h; rw [h.1]; rfl)]
      exact (coll_removed_counts hndO' hv' hlkB).1
    · rw [countP_analyze_ky old new _ (fun rec => decide (rec.path = ["k8s_yaml", k]) && !rec.kindD)
        (fun rec => by cases rec <;> rfl) (fun rec h => by rw [Bool.and_eq_true, decide_eq_true_eq] at h; rw [h.1]; rfl)]
      exact (coll_removed_counts hndO' hv' hlkB).2
  · intro v hlkO hlkN
    have hlkO' : lookupF k (old.k8s_yaml.map (fun p => (p.1, encodeYaml p.2))) =
        some (encodeYaml v) := by
      rw [lookupF_map_encode, hlkO]; rfl
    have hlkN' : lookupF k (new.k8s_yaml.map (fun p => (p.1, encodeYaml p.2))) =
        some (encodeYaml v) := by
      rw [lookupF_map_encode, hlkN]; rfl
    have hndO' : (keysOf (old.k8s_yaml.map (fun p => (p.1, encodeYaml p.2)))).Nodup := by
      rw [keysOf_map_encode]; exact hndOy
    have hwf : WfKeys (encodeYaml v) := by
      refine WfKeys.obj _ (by simp [keysOf]) ?_
      intro k' v' hm
      rcases List.mem_singleton.mp hm with h
      injection h with h1 h2
      subst h2
      exact WfKeys.str _
    rw [countP_analyze_ky old new _ (fun rec => decide (rec.path.take 2 = ["k8s_yaml", k]))
      (convert_take_eq _) (fun rec h => by
        rw [decide_eq_true_eq] at h
        rw [← head_take_two, h]
        rfl)]
    exact coll_equal_zero hndO' hlkO' hlkN' hwf

/-- C2 witness: the theorem applied to the scenario pair (defaults vs the
app registration) for the Added count, and to an unchanged state diffed
against itself for the equal-values clause. -/
theorem claim_C2_witness :
    ((analyzeChanges defaultTiltState appRegisteredState).countP
        (fun c => decide (c.path = ["docker_build", "app"]) && (c.type == ChangeType.added)) = 1 ∧
      (analyzeChanges defaultTiltState appRegisteredState).countP
        (fun c => decide (c.path = ["docker_build", "app"]) && !(c.type == ChangeType.added)) = 0) ∧
    (analyzeChanges stCtxA stCtxA).countP
      (fun c => decide (c.path.take 2 = ["docker_build", "app"])) = 0 :=
  ⟨(claim_C2 defaultTiltState appRegisteredState "app" (by decide) (by decide) (by decide)
      (by decide)).1 (by decide) (by decide),
   (claim_C2 stCtxA stCtxA "app" (by decide) (by decide) (by decide) (by decide)).2.2.1
     ⟨"app", [("buildContext", JVal.obj [("context", JVal.str "./a")])]⟩ rfl rfl
     (WfKeys.obj _ (by decide) (fun k v hm => by
        fin_cases hm
        · exact WfKeys.str _
        · exact WfKeys.obj _ (by decide) (fun k' v' hm' => by
            fin_cases hm'
            exact WfKeys.str _)))⟩

theorem convert_pathEq (P : List String) (rec : DiffRec) :
    (decide ((convertDiffToChange rec).path = P) : Bool) = decide (rec.path = P) := by
  cases rec <;> rfl

theorem removed_mem_record {coll k : String} {changes : List TiltStateChange}
    (h : k ∈ (collectChanges coll changes).removed) :
    ∃ c ∈ changes, c.path = [coll, k] ∧ c.type = ChangeType.removed := by
  simp only [collectChanges, List.mem_filterMap] at h
  obtain ⟨c, hc, hfc⟩ := h
  rw [List.mem_filter] at hc
  by_cases hcond : c.path.length = 2 ∧ c.type = ChangeType.removed
  · rw [if_pos hcond] at hfc
    refine ⟨c, hc.1, ?_, hcond.2⟩
    have hhead : c.path.head? = some coll := by
      have := hc.2
      simpa using this
    cases hp : c.path with
    | nil => rw [hp] at hcond; simp at hcond
    | cons a rest =>
        cases hrest : rest with
        | nil => rw [hp, hrest] at hcond; simp at hcond
        | cons b rest2 =>
            cases hrest2 : rest2 with
            | nil =>
                rw [hp, hrest, hrest2] at hhead hfc
                simp at hhead hfc
                rw [hhead, hfc]
            | cons x xs =>
                rw [hp, hrest, hrest2] at hcond
                simp at hcond
  · rw [if_neg hcond] at hfc
    cases hfc

theorem coll_bothObj_zero {s : String} {A B : List (String × JVal)} {k : String} {v w : JVal}
    (hndA : (keysOf A).Nodup) (hlkA : lookupF k A = some v) (hlkB : lookupF k B = some w)
    (hb : JVal.bothObj v w = true) :
    (jdiffVal [s] (.obj A) (.obj B)).countP
      (fun rec => decide (rec.path = [s, k])) = 0 := by
  have hmA : (k, v) ∈ A := lookupF_some_mem hlkA
  have hnew : List.countP (fun rec => decide (rec.path = [s, k]))
      (jdiffNew [s] A B) = 0 := by
    rw [List.countP_eq_zero]
    intro rec hrec hqr
    obtain ⟨_, j, hjA, hjB, hjp⟩ := jdiffNew_recs rec hrec
    rw [decide_eq_true_eq, hjp] at hqr
    have hjk : j = k := by simpa using hqr
    exact hjA (hjk ▸ mem_keysOf_of_mem hmA)
  simp only [jdiffVal, List.countP_append]
  rw [countP_jdiffFields_present _ (fun rec h => by
      rw [decide_eq_true_eq] at h
      rw [h]
      rfl) A hndA hmA hlkB]
  rw [hnew]
  rw [countP_jdiffVal_bothObj hb _ (fun rec h => by
    rw [decide_eq_true_eq] at h
    rw [h]
    rfl)]

/-- C3 counterexample: the same key app present in both states with a
nested buildContext difference produces no depth-two record, so the helper
projection puts the entry in no bucket at all — modified stays empty,
contradicting the claim that the entry lands in modified exactly once. -/
theorem claim_C3_counterexample :
    lookupF "app" stCtxA.docker_build =
      some ⟨"app", [("buildContext", JVal.obj [("context", JVal.str "./a")])]⟩ ∧
    lookupF "app" stCtxB.docker_build =
      some ⟨"app", [("buildContext", JVal.obj [("context", JVal.str "./b")])]⟩ ∧
    ¬((⟨"app", [("buildContext", JVal.obj [("context", JVal.str "./a")])]⟩ : DockerBuildConfig) =
      ⟨"app", [("buildContext", JVal.obj [("context", JVal.str "./b")])]⟩) ∧
    getDockerBuildChanges (analyzeChanges stCtxA stCtxB) = ⟨[], [], []⟩ := by
  refine ⟨rfl, rfl, by simp, ?_⟩
  simp [getDockerBuildChanges, collectChanges, analyzeChanges, stCtxA, stCtxB,
    defaultTiltState, encodeState, encodeBuild, jdiffVal, jdiffFields, jdiffNew,
    lookupF, containsKey, convertDiffToChange]

/-- C3 amended: build-spec and manifest values are stored as JSON objects,
and deep-diff recurses into two objects instead of reporting an edit at
the entry itself, so a key present in both states — whether the difference
is nested or the values are equal — produces no record at exactly path
collection, key; consequently the projections never place that key in the
removed bucket, and a nested-only modification reaches no bucket at all
(the records sit at longer paths, which the projections drop). -/
theorem claim_C3_amended (old new : GlobalTiltState) (k : String)
    (hndO : (keysOf old.docker_build).Nodup) (hndOy : (keysOf old.k8s_yaml).Nodup) :
    (∀ v w, lookupF k old.docker_build = some v → lookupF k new.docker_build = some w →
      (analyzeChanges old new).countP
        (fun c => decide (c.path = ["docker_build", k])) = 0 ∧
      ¬(k ∈ (getDockerBuildChanges (analyzeChanges old new)).removed)) ∧
    (∀ v w, lookupF k old.k8s_yaml = some v → lookupF k new.k8s_yaml = some w →
      (analyzeChanges old new).countP
        (fun c => decide (c.path = ["k8s_yaml", k])) = 0 ∧
      ¬(k ∈ (getK8sYamlChanges (analyzeChanges old new)).removed)) := by
  constructor
  · intro v w hlkO hlkN
    have hlkO' : lookupF k (old.docker_build.map (fun p => (p.1, encodeBuild p.2))) =
        some (encodeBuild v) := by
      rw [lookupF_map_encode, hlkO]; rfl
    have hlkN' : lookupF k (new.docker_build.map (fun p => (p.1, encodeBuild p.2))) =
        some (encodeBuild w) := by
      rw [lookupF_map_encode, hlkN]; rfl
    have hndO' : (keysOf (old.docker_build.map (fun p => (p.1, encodeBuild p.2)))).Nodup := by
      rw [keysOf_map_encode]; exact hndO
    have hzero : (analyzeChanges old new).countP
        (fun c => decide (c.path = ["docker_build", k])) = 0 := by
      rw [countP_analyze_db old new _ (fun rec => decide (rec.path = ["docker_build", k]))
        (convert_pathEq _) (fun rec h => by rw [decide_eq_true_eq] at h; rw [h]; rfl)]
      exact coll_bothObj_zero hndO' hlkO' hlkN' rfl
    refine ⟨hzero, ?_⟩
    intro hmem
    obtain ⟨c, hc, hcp, hct⟩ := removed_mem_record hmem
    have := List.countP_eq_zero.mp hzero c hc
    simp [hcp] at this
  · intro v w hlkO hlkN
    have hlkO' : lookupF k (old.k8s_yaml.map (fun p => (p.1, encodeYaml p.2))) =
        some (encodeYaml v) := by
      rw [lookupF_map_encode, hlkO]; rfl
    have hlkN' : lookupF k (new.k8s_yaml.map (fun p => (p.1, encodeYaml p.2))) =
        some (encodeYaml w) := by
      rw [lookupF_map_encode, hlkN]; rfl
    have hndO' : (keysOf (old.k8s_yaml.map (fun p => (p.1, encodeYaml p.2)))).Nodup := by
      rw [keysOf_map_encode]; exact hndOy
    have hzero : (analyzeChanges old new).countP
        (fun c => decide (c.path = ["k8s_yaml", k])) = 0 := by
      rw [countP_analyze_ky old new _ (fun rec => decide (rec.path = ["k8s_yaml", k]))
        (convert_pathEq _) (fun rec h => by rw [decide_eq_true_eq] at h; rw [h]; rfl)]
      exact coll_bothObj_zero hndO' hlkO' hlkN' rfl
    refine ⟨hzero, ?_⟩
    intro hmem
    obtain ⟨c, hc, hcp, hct⟩ := removed_mem_record hmem
    have := List.countP_eq_zero.mp hzero c hc
    simp [hcp] at this

/-- C3 amended witness: the theorem at the nested-modification scenario
states, where app is present on both sides with different build
contexts. -/
theorem claim_C3_witness :
    (analyzeChanges stCtxA stCtxB).countP
      (fun c => decide (c.path = ["docker_build", "app"])) = 0 ∧
    ¬("app" ∈ (getDockerBuildChanges (analyzeChanges stCtxA stCtxB)).removed) :=
  (claim_C3_amended stCtxA stCtxB "app" (by decide) (by decide)).1
    ⟨"app", [("buildContext", JVal.obj [("context", JVal.str "./a")])]⟩
    ⟨"app", [("buildContext", JVal.obj [("context", JVal.str "./b")])]⟩ rfl rfl

theorem gmatch_star_cons {ts : List GTok} {d : Char} {ds : List Char}
    (hd : ¬(d = '/')) (h : GMatch (.star :: ts) ds) : GMatch (.star :: ts) (d :: ds) := by
  cases h with
  | star seg rest hseg hm =>
      have : d :: (seg ++ rest) = (d :: seg) ++ rest := rfl
      rw [this]
      exact GMatch.star (d :: seg) rest
        (fun c hc => by
          rcases List.mem_cons.mp hc with rfl | hc
          · exact hd
          · exact hseg c hc) hm

theorem gmatch_dstar_cons {ts : List GTok} {d : Char} {ds : List Char}
    (hd : isLineTerm d = false) (h : GMatch (.dstar :: ts) ds) :
    GMatch (.dstar :: ts) (d :: ds) := by
  cases h with
  | dstar seg rest hseg hm =>
      have : d :: (seg ++ rest) = (d :: seg) ++ rest := rfl
      rw [this]
      exact GMatch.dstar (d :: seg) rest
        (fun c hc => by
          rcases List.mem_cons.mp hc with rfl | hc
          · exact hd
          · exact hseg c hc) hm

theorem gmatch_of_reMatch : ∀ (ts : List GTok) (ds : List Char),
    reMatch ts ds = true → GMatch ts ds := by
  intro ts ds
  induction ts, ds using reMatch.induct with
  | case1 ds =>
      intro h
      rw [reMatch] at h
      rw [List.isEmpty_iff.mp h]
      exact GMatch.nil
  | case2 c ts d ds ih =>
      intro h
      rw [reMatch, Bool.and_eq_true, decide_eq_true_eq] at h
      rw [h.1]
      exact GMatch.lit (ih h.2)
  | case3 c ts =>
      intro h
      rw [reMatch] at h
      cases h
  | case4 ts d ds ih =>
      intro h
      rw [reMatch, Bool.and_eq_true, Bool.not_eq_true'] at h
      exact GMatch.anyc h.1 (ih h.2)
  | case5 ts =>
      intro h
      rw [reMatch] at h
      cases h
  | case6 ts d ds ih =>
      intro h
      rw [reMatch, Bool.and_eq_true, decide_eq_true_eq] at h
      exact GMatch.qmark h.1 (ih h.2)
  | case7 ts =>
      intro h
      rw [reMatch] at h
      cases h
  | case8 ts ih =>
      intro h
      rw [reMatch] at h
      exact GMatch.star [] [] (fun c hc => by cases hc) (ih h)
  | case9 ts d ds ih1 ih2 =>
      intro h
      rw [reMatch, Bool.or_eq_true] at h
      rcases h with h | h
      · exact GMatch.star [] (d :: ds) (fun c hc => by cases hc) (ih1 h)
      · rw [Bool.and_eq_true, decide_eq_true_eq] at h
        exact gmatch_star_cons h.1 (ih2 h.2)
  | case10 ts ih =>
      intro h
      rw [reMatch] at h
      exact GMatch.dstar [] [] (fun c hc => by cases hc) (ih h)
  | case11 ts d ds ih1 ih2 =>
      intro h
      rw [reMatch, Bool.or_eq_true] at h
      rcases h with h | h
      · exact GMatch.dstar [] (d :: ds) (fun c hc => by cases hc) (ih1 h)
      · rw [Bool.and_eq_true, Bool.not_eq_true'] at h
        exact gmatch_dstar_cons h.1 (ih2 h.2)

theorem reMatch_of_gmatch {ts : List GTok} {ds : List Char} (h : GMatch ts ds) :
    reMatch ts ds = true := by
  induction h with
  | nil =>
      rw [reMatch]
      rfl
  | lit hm ih =>
      rw [reMatch, Bool.and_eq_true, decide_eq_true_eq]
      exact ⟨rfl, ih⟩
  | anyc hd hm ih =>
      rw [reMatch, Bool.and_eq_true, Bool.not_eq_true']
      exact ⟨hd, ih⟩
  | qmark hd hm ih =>
      rw [reMatch, Bool.and_eq_true, decide_eq_true_eq]
      exact ⟨hd, ih⟩
  | star seg rest hseg hm ih =>
      induction seg with
      | nil =>
          cases rest with
          | nil =>
              rw [List.nil_append, reMatch]
              exact ih
          | cons d ds' =>
              rw [List.nil_append, reMatch, Bool.or_eq_true]
              exact Or.inl ih
      | cons c seg' ihseg =>
          rw [List.cons_append, reMatch, Bool.or_eq_true]
          refine Or.inr ?_
          rw [Bool.and_eq_true, decide_eq_true_eq]
          exact ⟨hseg c (List.mem_cons_self _ _),
            ihseg (fun x hx => hseg x (List.mem_cons_of_mem _ hx))⟩
  | dstar seg rest hseg hm ih =>
      induction seg with
      | nil =>
          cases rest with
          | nil =>
              rw [List.nil_append, reMatch]
              exact ih
          | cons d ds' =>
              rw [List.nil_append, reMatch, Bool.or_eq_true]
              exact Or.inl ih
      | cons c seg' ihseg =>
          rw [List.cons_append, reMatch, Bool.or_eq_true]
          refine Or.inr ?_
          rw [Bool.and_eq_true, Bool.not_eq_true']
          exact ⟨hseg c (List.mem_cons_self _ _),
            ihseg (fun x hx => hseg x (List.mem_cons_of_mem _ hx))⟩

theorem reMatch_iff_gmatch (ts : List GTok) (ds : List Char) :
    reMatch ts ds = true ↔ GMatch ts ds :=
  ⟨gmatch_of_reMatch ts ds, reMatch_of_gmatch⟩

/-- C8 counterexample: the claim treats the question mark as a wildcard
(matching one in-segment character), so pattern a?c should match path abc
under the claim's translation — and it does under SpecGlobMatch — but the
source only enters the wildcard branch when the pattern contains an
asterisk, so matchesPattern (here with the rendered matcher standing in
for the engine, which the second conjunct shows is never consulted) falls
back to exact/directory-prefix comparison and rejects the pair. -/
theorem claim_C8_counterexample :
    matchesPattern (fun pat path => reMatch (lexGlob pat) path) "abc" "a?c" = false ∧
    ("a?c".toList.contains '*') = false ∧
    ("a?c".toList.contains '?') = true ∧
    SpecGlobMatch (lexGlobSpec "a?c".toList) "abc".toList ∧
    ¬(("abc" : String) = "a?c") ∧
    startsWithL "abc".toList ("a?c".toList ++ ['/']) = false := by
  refine ⟨rfl, rfl, rfl, ?_, by decide, rfl⟩
  exact SpecGlobMatch.lit (SpecGlobMatch.qmark (by decide)
    (SpecGlobMatch.lit SpecGlobMatch.nil))

/-- C8 amended: matchesPattern consults the regular-expression engine
exactly when the pattern contains an asterisk.  Assuming the engine agrees
with the rendered matcher reMatch of lexGlob on the rendered fragment
(glob-safe BMP pattern, BMP path — where the generated regex is exactly
that token list, is always a valid regex, and code units are characters),
the wildcard branch on that fragment matches precisely the declarative
semantics GMatch: double asterisk crosses path separators, asterisk and
question mark stay within one segment, the unescaped dot matches any
non-line-terminator.  Outside the fragment the pattern's other unescaped
metacharacters keep their regex meanings, or make the regex invalid and
the source's catch answers false; no equivalence with a glob reading is
asserted there.  A pattern without an asterisk — even one containing a
question mark — matches only by exact equality or as a directory prefix,
engine unconsulted.  In particular src slash-double-asterisk-slash-asterisk
matches src/a/b.js, and package.json does not match src/package.json. -/
theorem claim_C8_amended (jsRegexTest : List Char → List Char → Bool)
    (filePath pattern : String)
    (hsem : ∀ pat path : List Char, pat.all globSafe = true → pat.all isBmp = true →
      path.all isBmp = true → jsRegexTest pat path = reMatch (lexGlob pat) path) :
    ((pattern.toList.contains '*') = true →
      (normSlash pattern.toList).all globSafe = true →
      (normSlash pattern.toList).all isBmp = true →
      (normSlash filePath.toList).all isBmp = true →
      (matchesPattern jsRegexTest filePath pattern = true ↔
        GMatch (lexGlob (normSlash pattern.toList)) (normSlash filePath.toList))) ∧
    ((pattern.toList.contains '*') = false →
      (matchesPattern jsRegexTest filePath pattern = true ↔
        (filePath = pattern ∨
          startsWithL filePath.toList (pattern.toList ++ ['/']) = true))) ∧
    matchesPattern jsRegexTest "src/a/b.js" "src/**/*" = true ∧
    matchesPattern jsRegexTest "src/package.json" "package.json" = false := by
  refine ⟨?_, ?_, ?_, ?_⟩
  · intro hc hsafe hbp hbf
    rw [matchesPattern, if_pos (by rw [hc]), hsem _ _ hsafe hbp hbf]
    exact reMatch_iff_gmatch _ _
  · intro hc
    rw [matchesPattern, if_neg (by rw [hc]; exact Bool.false_ne_true)]
    simp
  · have hg : GMatch (lexGlob (normSlash "src/**/*".toList))
        (normSlash "src/a/b.js".toList) := by
      show GMatch [.lit 's', .lit 'r', .lit 'c', .lit '/', .dstar, .lit '/', .star]
        "src/a/b.js".toList
      have h1 : ("src/a/b.js".toList : List Char) =
          ['s', 'r', 'c', '/'] ++ (['a'] ++ (['/'] ++ (['b', '.', 'j', 's'] ++ []))) := rfl
      rw [h1]
      exact GMatch.lit (GMatch.lit (GMatch.lit (GMatch.lit
        (GMatch.dstar ['a'] _ (by decide) (GMatch.lit
          (GMatch.star ['b', '.', 'j', 's'] [] (by decide) GMatch.nil))))))
    rw [matchesPattern, if_pos (by rfl),
      hsem _ _ (by decide) (by decide) (by decide)]
    exact (reMatch_iff_gmatch _ _).mpr hg
  · rfl

/-- C8 amended witness: with the rendered matcher as the engine (which
satisfies the agreement hypothesis definitionally), the wildcard branch at
the matching example pair — its pattern glob-safe and BMP, its path BMP —
and the exact branch at the package.json pair. -/
theorem claim_C8_witness :
    (matchesPattern (fun pat path => reMatch (lexGlob pat) path)
        "src/a/b.js" "src/**/*" = true ↔
      GMatch (lexGlob (normSlash "src/**/*".toList)) (normSlash "src/a/b.js".toList)) ∧
    (matchesPattern (fun pat path => reMatch (lexGlob pat) path)
        "src/package.json" "package.json" = true ↔
      ("src/package.json" : String) = "package.json" ∨
        startsWithL "src/package.json".toList ("package.json".toList ++ ['/']) = true) :=
  ⟨(claim_C8_amended (fun pat path => reMatch (lexGlob pat) path)
      "src/a/b.js" "src/**/*" (fun _ _ _ _ _ => rfl)).1 rfl
      (by decide) (by decide) (by decide),
   (claim_C8_amended (fun pat path => reMatch (lexGlob pat) path)
      "src/package.json" "package.json" (fun _ _ _ _ _ => rfl)).2.1 rfl⟩
